import Mathlib

/-!
# Verification of the rlox tree-walking interpreter core

A shallow embedding of the rlox source (scanner, parser, AST printer,
environment chain and evaluator) together with theorems settling the
specification's testable claims.

Modelling conventions:
* Rust `f64` number payloads are modelled as `ℚ`.  IEEE-754 specifics
  (NaN, infinities, the sign of zero) are abstracted away; note that the
  rational `0` stands for both `0.0` and `-0.0`, and `right == 0.0` in the
  source is true for both, so the divide-by-zero test `right = 0` is the
  faithful translation.
* `HashMap<String, Literal>` is modelled as an association list with
  first-match lookup and in-place replacement on insert; for distinct keys
  this has exactly the map semantics the source relies on.
* The scanner's and parser's `while` loops and mutual recursion are
  modelled with an explicit fuel parameter; the top-level entry points pass
  fuel larger than any possible number of iterations, so fuel exhaustion
  (which surfaces as an error) is unreachable from them.
* `Rc<RefCell<_>>` mutation is modelled by explicit state passing: the
  evaluator's functions return their post-state even on error, exactly as
  the Rust interpreter's fields persist after an `Err` return.
-/

set_option maxRecDepth 8000

deriving instance DecidableEq for Except

namespace RLox

/-! ## Token model (src/token.rs) -/

inductive TokenType where
  | leftParen | rightParen | leftBrace | rightBrace
  | comma | dot | minus | plus | semiColon | slash | star
  | bang | bangEqual | equal | equalEqual
  | greater | greaterEqual | less | lessEqual
  | identifier | string | number
  | andKw | classKw | elseKw | falseKw | funKw | forKw | ifKw | nilKw
  | orKw | printKw | returnKw | superKw | thisKw | trueKw | varKw | whileKw
  | eof
  deriving DecidableEq, Repr

/-- Rust `Literal`.  `f64` is modelled as `ℚ` (see module comment). -/
inductive Literal where
  | str (s : String)
  | number (n : ℚ)
  | boolean (b : Bool)
  | nil
  deriving DecidableEq, Repr

structure Token where
  typ : TokenType
  lexeme : String
  literal : Option Literal
  line : Nat
  deriving DecidableEq, Repr

/-! ## Scanner (src/scanner.rs) -/

structure ScannerError where
  line : Nat
  description : String
  deriving DecidableEq, Repr

/-- The `Scanner` struct's mutable fields. -/
structure ScanState where
  source : List Char
  tokens : List Token
  startPos : Nat
  current : Nat
  line : Nat
  deriving DecidableEq, Repr

def ScanState.isAtEnd (st : ScanState) : Bool :=
  st.source.length ≤ st.current

/-- `peek`: the current character, `none` at end of input. -/
def ScanState.peekCh (st : ScanState) : Option Char :=
  st.source.get? st.current

/-- `peek_next`. -/
def ScanState.peekNext (st : ScanState) : Option Char :=
  if st.current + 1 ≥ st.source.length then none else st.source.get? (st.current + 1)

/-- `advance`: return the current character and move past it.  (The source
indexes unconditionally; it is only called in-bounds, so the out-of-range
default is never consulted.) -/
def ScanState.advanceCh (st : ScanState) : Char × ScanState :=
  (st.source.getD st.current ' ', { st with current := st.current + 1 })

/-- `matches`. -/
def ScanState.matchesCh (expected : Char) (st : ScanState) : Bool × ScanState :=
  if st.isAtEnd then (false, st)
  else if st.source.getD st.current ' ' ≠ expected then (false, st)
  else (true, { st with current := st.current + 1 })

/-- `value_for(a..b)`: the characters in positions `[a, b)`. -/
def ScanState.valueFor (st : ScanState) (a b : Nat) : String :=
  String.mk ((st.source.take b).drop a)

/-- `add_token_literal`. -/
def ScanState.addTokenLit (typ : TokenType) (lit : Option Literal) (st : ScanState) : ScanState :=
  { st with tokens := st.tokens ++ [⟨typ, st.valueFor st.startPos st.current, lit, st.line⟩] }

/-- `add_token`. -/
def ScanState.addTok (typ : TokenType) (st : ScanState) : ScanState :=
  st.addTokenLit typ none

/-- The reserved-word table. -/
def RESERVED_WORDS : List (String × TokenType) :=
  [("and", .andKw), ("class", .classKw), ("else", .elseKw), ("false", .falseKw),
   ("for", .forKw), ("fun", .funKw), ("if", .ifKw), ("nil", .nilKw),
   ("or", .orKw), ("print", .printKw), ("return", .returnKw), ("super", .superKw),
   ("this", .thisKw), ("true", .trueKw), ("var", .varKw), ("while", .whileKw)]

def reservedLookup (s : String) : Option TokenType :=
  (RESERVED_WORDS.lookup s)

/-- Digit value of an ASCII digit character. -/
def digitVal (c : Char) : Nat := c.toNat - 48

/-- Value of a big-endian ASCII digit run. -/
def digitsVal (cs : List Char) : Nat :=
  cs.foldl (fun a c => 10 * a + digitVal c) 0

/-- Model of `str::parse::<f64>` restricted to the lexemes the scanner's
`number` produces, `[0-9]+(\.[0-9]+)?`; exact rational instead of the
nearest double. -/
def parseNum (cs : List Char) : ℚ :=
  let intPart := cs.takeWhile (· ≠ '.')
  let rest := cs.dropWhile (· ≠ '.')
  match rest with
  | [] => (digitsVal intPart : ℚ)
  | _ :: frac => (digitsVal intPart : ℚ) + (digitsVal frac : ℚ) / (10 : ℚ) ^ frac.length

/-- The loop of `string`: consume until a closing quote or end of input,
counting newlines. -/
def stringLoop : Nat → ScanState → ScanState
  | 0, st => st
  | fuel + 1, st =>
    if st.peekCh ≠ some '"' ∧ ¬ st.isAtEnd then
      let (c, st1) := st.advanceCh
      stringLoop fuel (if c = '\n' then { st1 with line := st1.line + 1 } else st1)
    else st

/-- `string`. -/
def scanString (fuel : Nat) (st : ScanState) : Except ScannerError ScanState :=
  let st1 := stringLoop fuel st
  if st1.isAtEnd then
    .error ⟨st1.line, "Unterminated string."⟩
  else
    let st2 := (st1.advanceCh).2
    let value := st2.valueFor (st2.startPos + 1) (st2.current - 1)
    .ok (st2.addTokenLit .string (some (.str value)))

/-- The digit-consuming loops of `number`. -/
def digitsLoop : Nat → ScanState → ScanState
  | 0, st => st
  | fuel + 1, st =>
    match st.peekCh with
    | some c => if c.isDigit then digitsLoop fuel (st.advanceCh).2 else st
    | none => st

/-- `number`.  (The Rust `parse()?` cannot fail on the produced lexemes, so
the model is total.) -/
def scanNumber (fuel : Nat) (st : ScanState) : ScanState :=
  let st1 := digitsLoop fuel st
  let st2 :=
    if st1.peekCh = some '.' ∧ (st1.peekNext.elim false Char.isDigit) then
      digitsLoop fuel (st1.advanceCh).2
    else st1
  let value := (st2.source.take st2.current).drop st2.startPos
  st2.addTokenLit .number (some (.number (parseNum value)))

/-- Rust `'a'..='z' | 'A'..='Z' | '0'..='9' | '_'`. -/
def isIdentCh (c : Char) : Bool := c.isAlpha || c.isDigit || c = '_'

/-- The loop of `identifier`. -/
def identLoop : Nat → ScanState → ScanState
  | 0, st => st
  | fuel + 1, st =>
    match st.peekCh with
    | some c => if isIdentCh c then identLoop fuel (st.advanceCh).2 else st
    | none => st

/-- `identifier`. -/
def scanIdentifier (fuel : Nat) (st : ScanState) : ScanState :=
  let st1 := identLoop fuel st
  let text := st1.valueFor st1.startPos st1.current
  match reservedLookup text with
  | some .trueKw => st1.addTokenLit .trueKw (some (.boolean true))
  | some .falseKw => st1.addTokenLit .falseKw (some (.boolean false))
  | some .nilKw => st1.addTokenLit .nilKw (some .nil)
  | some t => st1.addTok t
  | none => st1.addTok .identifier

/-- The `//` comment loop: consume until a newline (not consumed) or end. -/
def lineCommentLoop : Nat → ScanState → ScanState
  | 0, st => st
  | fuel + 1, st =>
    if st.peekCh ≠ some '\n' ∧ ¬ st.isAtEnd then
      lineCommentLoop fuel (st.advanceCh).2
    else st

/-- The inner loop of `multiline_comment`: consume until a `*` or end,
counting newlines. -/
def starLoop : Nat → ScanState → ScanState
  | 0, st => st
  | fuel + 1, st =>
    if st.peekCh ≠ some '*' ∧ ¬ st.isAtEnd then
      let (c, st1) := st.advanceCh
      starLoop fuel (if c = '\n' then { st1 with line := st1.line + 1 } else st1)
    else st

/-- `multiline_comment`. -/
def commentLoop : Nat → ScanState → Except ScannerError ScanState
  | 0, st => .ok st
  | fuel + 1, st =>
    let st1 := starLoop fuel st
    if st1.isAtEnd then
      .error ⟨st1.line, "Unterminated comment."⟩
    else
      let st2 := (st1.advanceCh).2
      let r := ScanState.matchesCh '/' st2
      if r.1 then .ok r.2 else commentLoop fuel r.2

/-- `scan_token`: one dispatch step.  `fuel` bounds the inner loops. -/
def scanToken (fuel : Nat) (st : ScanState) : Except ScannerError ScanState :=
  let (c, st1) := st.advanceCh
  match c with
  | '(' => .ok (st1.addTok .leftParen)
  | ')' => .ok (st1.addTok .rightParen)
  | '{' => .ok (st1.addTok .leftBrace)
  | '}' => .ok (st1.addTok .rightBrace)
  | ',' => .ok (st1.addTok .comma)
  | '.' => .ok (st1.addTok .dot)
  | '-' => .ok (st1.addTok .minus)
  | '+' => .ok (st1.addTok .plus)
  | ';' => .ok (st1.addTok .semiColon)
  | '*' => .ok (st1.addTok .star)
  | '!' =>
    let r := ScanState.matchesCh '=' st1
    .ok (r.2.addTok (if r.1 then .bangEqual else .bang))
  | '=' =>
    let r := ScanState.matchesCh '=' st1
    .ok (r.2.addTok (if r.1 then .equalEqual else .equal))
  | '<' =>
    let r := ScanState.matchesCh '=' st1
    .ok (r.2.addTok (if r.1 then .lessEqual else .less))
  | '>' =>
    let r := ScanState.matchesCh '=' st1
    .ok (r.2.addTok (if r.1 then .greaterEqual else .greater))
  | '/' =>
    let r := ScanState.matchesCh '/' st1
    if r.1 then .ok (lineCommentLoop fuel r.2)
    else
      let r2 := ScanState.matchesCh '*' r.2
      if r2.1 then commentLoop fuel r2.2
      else .ok (r.2.addTok .slash)
  | ' ' => .ok st1
  | '\r' => .ok st1
  | '\t' => .ok st1
  | '\n' => .ok { st1 with line := st1.line + 1 }
  | '"' => scanString fuel st1
  | c =>
    if c.isDigit then .ok (scanNumber fuel st1)
    else if c.isAlpha || c = '_' then .ok (scanIdentifier fuel st1)
    else .error ⟨st1.line, "Unexpected character."⟩

/-- The `scan_tokens` loop: set `start ← current`, scan one token, repeat. -/
def scanLoop : Nat → Nat → ScanState → Except ScannerError ScanState
  | _, 0, st => .ok st
  | innerFuel, fuel + 1, st =>
    if st.isAtEnd then .ok st
    else
      match scanToken innerFuel { st with startPos := st.current } with
      | .error e => .error e
      | .ok st1 => scanLoop innerFuel fuel st1

/-- `scan_tokens`: scan the whole source and append the EOF sentinel.  The
fuel `length + 1` exceeds the number of loop iterations (each consumes at
least one character) and the length of every inner run. -/
def scanTokens (source : String) : Except ScannerError (List Token) :=
  let cs := source.data
  let fuel := cs.length + 1
  match scanLoop fuel fuel ⟨cs, [], 0, 0, 1⟩ with
  | .error e => .error e
  | .ok st => .ok (st.tokens ++ [⟨.eof, "", none, st.line⟩])

example : scanTokens "1." =
    .ok [⟨.number, "1", some (.number 1), 1⟩, ⟨.dot, ".", none, 1⟩, ⟨.eof, "", none, 1⟩] := by
  decide

example : scanTokens "var x = 1;" =
    .ok [⟨.varKw, "var", none, 1⟩, ⟨.identifier, "x", none, 1⟩, ⟨.equal, "=", none, 1⟩,
         ⟨.number, "1", some (.number 1), 1⟩, ⟨.semiColon, ";", none, 1⟩, ⟨.eof, "", none, 1⟩] := by
  decide

example : scanTokens "\"a\nb\"" =
    .ok [⟨.string, "\"a\nb\"", some (.str "a\nb"), 2⟩, ⟨.eof, "", none, 2⟩] := by
  decide

/-! ## Expression and statement AST (src/expr.rs, src/stmt.rs) -/

inductive Expr where
  | binary (left : Expr) (operator : Token) (right : Expr)
  | grouping (expression : Expr)
  | literal (value : Literal)
  | unary (operator : Token) (right : Expr)
  | variable (name : Token)
  | assign (name : Token) (value : Expr)
  deriving DecidableEq, Repr

inductive Stmt where
  | expression (e : Expr)
  | print (e : Expr)
  | varDecl (name : Token) (initializer : Option Expr)
  | block (statements : List Stmt)
  deriving Repr

/-! ## Parser (src/parser.rs) -/

structure ParseError where
  token : Token
  message : String
  deriving DecidableEq, Repr

/-- The `Parser` struct's fields. -/
structure PState where
  tokens : List Token
  current : Nat
  deriving DecidableEq, Repr

/-- The sentinel consulted only on out-of-range indexing, which cannot
happen on scanner output (always EOF-terminated). -/
def eofFallback : Token := ⟨.eof, "", none, 0⟩

/-- `peek`. -/
def PState.peekT (p : PState) : Token :=
  p.tokens.getD p.current eofFallback

/-- `previous`. -/
def PState.previousT (p : PState) : Token :=
  p.tokens.getD (p.current - 1) eofFallback

/-- `is_at_end`. -/
def PState.isAtEndP (p : PState) : Bool :=
  p.peekT.typ = .eof

/-- `check_token`. -/
def PState.checkToken (p : PState) (typ : TokenType) : Bool :=
  if p.isAtEndP then false else p.peekT.typ = typ

/-- `advance`. -/
def PState.advanceT (p : PState) : Token × PState :=
  let p1 := if p.isAtEndP then p else { p with current := p.current + 1 }
  (p1.previousT, p1)

/-- `matches_token`. -/
def PState.matchesTokenP (p : PState) (typ : TokenType) : Bool × PState :=
  if p.checkToken typ then
    let (_, p1) := p.advanceT
    (true, p1)
  else (false, p)

/-- Parser results carry the parser's position even on error, mirroring the
fact that the Rust parser's `current` field persists after an `Err`. -/
abbrev PResult (α : Type) := Except (ParseError × PState) (α × PState)

/-- The error produced when the model's fuel runs out; unreachable from the
top-level entry points, whose fuel exceeds any possible recursion depth. -/
def outOfFuel {α : Type} (p : PState) : PResult α := .error (⟨p.peekT, "out of fuel"⟩, p)

/-- `consume`. -/
def consumeT (typ : TokenType) (msg : String) (p : PState) : PResult Token :=
  if p.checkToken typ then .ok p.advanceT
  else .error (⟨p.peekT, msg⟩, p)

/-- `primary`, parameterized by the `expression` parser it re-enters after
`(`.  (The mutual recursion of the source is tied at `expressionP`.) -/
def primaryP (exprFn : PState → PResult Expr) (p : PState) : PResult Expr :=
  let (token, p1) := p.advanceT
  match token.typ with
  | .leftParen =>
    match exprFn p1 with
    | .error e => .error e
    | .ok (e, p2) =>
      match consumeT .rightParen "expected ')' after expression" p2 with
      | .error e => .error e
      | .ok (_, p3) => .ok (.grouping e, p3)
  | .string => .ok (.literal (token.literal.getD .nil), p1)
  | .number => .ok (.literal (token.literal.getD .nil), p1)
  | .trueKw => .ok (.literal (token.literal.getD .nil), p1)
  | .falseKw => .ok (.literal (token.literal.getD .nil), p1)
  | .nilKw => .ok (.literal (token.literal.getD .nil), p1)
  | .identifier => .ok (.variable token, p1)
  | _ => .error (⟨token, "expected expression"⟩, p1)

/-- `unary`. -/
def unaryP (exprFn : PState → PResult Expr) : Nat → PState → PResult Expr
  | 0, p => outOfFuel p
  | fuel + 1, p =>
    match p.peekT.typ with
    | .bang | .minus =>
      let (operator, p1) := p.advanceT
      match unaryP exprFn fuel p1 with
      | .error e => .error e
      | .ok (right, p2) => .ok (.unary operator right, p2)
    | _ => primaryP exprFn p

/-- The `while` loop of `factor`. -/
def factorLoopP (exprFn : PState → PResult Expr) : Nat → Expr → PState → PResult Expr
  | 0, _, p => outOfFuel p
  | fuel + 1, expr, p =>
    match p.peekT.typ with
    | .slash | .star =>
      let (operator, p1) := p.advanceT
      match unaryP exprFn fuel p1 with
      | .error e => .error e
      | .ok (right, p2) => factorLoopP exprFn fuel (.binary expr operator right) p2
    | _ => .ok (expr, p)

/-- `factor`. -/
def factorP (exprFn : PState → PResult Expr) (fuel : Nat) (p : PState) : PResult Expr :=
  match unaryP exprFn fuel p with
  | .error e => .error e
  | .ok (expr, p1) => factorLoopP exprFn fuel expr p1

/-- The `while` loop of `term`. -/
def termLoopP (exprFn : PState → PResult Expr) : Nat → Expr → PState → PResult Expr
  | 0, _, p => outOfFuel p
  | fuel + 1, expr, p =>
    match p.peekT.typ with
    | .minus | .plus =>
      let (operator, p1) := p.advanceT
      match factorP exprFn fuel p1 with
      | .error e => .error e
      | .ok (right, p2) => termLoopP exprFn fuel (.binary expr operator right) p2
    | _ => .ok (expr, p)

/-- `term`. -/
def termP (exprFn : PState → PResult Expr) (fuel : Nat) (p : PState) : PResult Expr :=
  match factorP exprFn fuel p with
  | .error e => .error e
  | .ok (expr, p1) => termLoopP exprFn fuel expr p1

/-- The `while` loop of `comparison`. -/
def comparisonLoopP (exprFn : PState → PResult Expr) : Nat → Expr → PState → PResult Expr
  | 0, _, p => outOfFuel p
  | fuel + 1, expr, p =>
    match p.peekT.typ with
    | .greater | .greaterEqual | .less | .lessEqual =>
      let (operator, p1) := p.advanceT
      match termP exprFn fuel p1 with
      | .error e => .error e
      | .ok (right, p2) => comparisonLoopP exprFn fuel (.binary expr operator right) p2
    | _ => .ok (expr, p)

/-- `comparison`. -/
def comparisonP (exprFn : PState → PResult Expr) (fuel : Nat) (p : PState) : PResult Expr :=
  match termP exprFn fuel p with
  | .error e => .error e
  | .ok (expr, p1) => comparisonLoopP exprFn fuel expr p1

/-- The `while` loop of `equality`. -/
def equalityLoopP (exprFn : PState → PResult Expr) : Nat → Expr → PState → PResult Expr
  | 0, _, p => outOfFuel p
  | fuel + 1, expr, p =>
    match p.peekT.typ with
    | .bangEqual | .equalEqual =>
      let (operator, p1) := p.advanceT
      match comparisonP exprFn fuel p1 with
      | .error e => .error e
      | .ok (right, p2) => equalityLoopP exprFn fuel (.binary expr operator right) p2
    | _ => .ok (expr, p)

/-- `equality`. -/
def equalityP (exprFn : PState → PResult Expr) (fuel : Nat) (p : PState) : PResult Expr :=
  match comparisonP exprFn fuel p with
  | .error e => .error e
  | .ok (expr, p1) => equalityLoopP exprFn fuel expr p1

/-- `assignment` (right-associative via self-recursion; the reported
"Invalid assignment target" of the source is a side effect only — the value
is still the LHS). -/
def assignmentP (exprFn : PState → PResult Expr) : Nat → PState → PResult Expr
  | 0, p => outOfFuel p
  | fuel + 1, p =>
    match equalityP exprFn fuel p with
    | .error e => .error e
    | .ok (expr, p1) =>
      if p1.checkToken .equal then
        let (_, p2) := p1.advanceT
        match assignmentP exprFn fuel p2 with
        | .error e => .error e
        | .ok (value, p3) =>
          match expr with
          | .variable name => .ok (.assign name value, p3)
          | _ => .ok (expr, p3)
      else .ok (expr, p1)

/-- `expression`: the knot of the recursive descent. -/
def expressionP : Nat → PState → PResult Expr
  | 0, p => outOfFuel p
  | fuel + 1, p => assignmentP (expressionP fuel) fuel p

/-- The loop of `synchronize`. -/
def syncLoopP : Nat → PState → PState
  | 0, p => p
  | fuel + 1, p =>
    if p.isAtEndP then p
    else if p.previousT.typ = .semiColon then p
    else
      match p.peekT.typ with
      | .classKw | .funKw | .varKw | .forKw | .ifKw | .whileKw | .printKw | .returnKw => p
      | _ => syncLoopP fuel (p.advanceT).2

/-- `synchronize`. -/
def synchronizeP (fuel : Nat) (p : PState) : PState :=
  syncLoopP fuel (p.advanceT).2

/-- The placeholder statement inserted by error recovery. -/
def placeholderStmt : Stmt := .expression (.literal .nil)

/-- `var_declaration` (`fuel` feeds the expression parser). -/
def varDeclarationP (fuel : Nat) (p : PState) : PResult Stmt :=
  match consumeT .identifier "Expected variable name." p with
  | .error e => .error e
  | .ok (name, p1) =>
    let (m, p2) := p1.matchesTokenP .equal
    match (if m then (expressionP fuel p2).map (fun (e, p3) => (some e, p3))
           else .ok (none, p2) : PResult (Option Expr)) with
    | .error e => .error e
    | .ok (initializer, p3) =>
      match consumeT .semiColon "Expected ';' after variable declaration." p3 with
      | .error e => .error e
      | .ok (_, p4) => .ok (.varDecl name initializer, p4)

/-- `print_statement`. -/
def printStatementP (fuel : Nat) (p : PState) : PResult Stmt :=
  match expressionP fuel p with
  | .error e => .error e
  | .ok (value, p1) =>
    match consumeT .semiColon "Expected ';' after print statement." p1 with
    | .error e => .error e
    | .ok (_, p2) => .ok (.print value, p2)

/-- `expression_statement`. -/
def expressionStatementP (fuel : Nat) (p : PState) : PResult Stmt :=
  match expressionP fuel p with
  | .error e => .error e
  | .ok (e, p1) =>
    match consumeT .semiColon "Expected ';' after expression." p1 with
    | .error e => .error e
    | .ok (_, p2) => .ok (.expression e, p2)

/-- The `while` loop of `block`, parameterized by the `declaration` parser
(the mutual recursion of the source is tied at `declarationP`). -/
def blockLoopP (declFn : PState → PResult Stmt) : Nat → List Stmt → PState → PResult (List Stmt)
  | 0, _, p => outOfFuel p
  | fuel + 1, acc, p =>
    if ¬ p.checkToken .rightBrace ∧ ¬ p.isAtEndP then
      match declFn p with
      | .error e => .error e
      | .ok (s, p1) => blockLoopP declFn fuel (acc ++ [s]) p1
    else .ok (acc, p)

/-- `block`. -/
def blockP (declFn : PState → PResult Stmt) (fuel : Nat) (p : PState) : PResult Stmt :=
  match blockLoopP declFn fuel [] p with
  | .error e => .error e
  | .ok (statements, p1) =>
    match consumeT .rightBrace "Expected \x7d after block." p1 with
    | .error e => .error e
    | .ok (_, p2) => .ok (.block statements, p2)

/-- `statement`. -/
def statementP (declFn : PState → PResult Stmt) (fuel : Nat) (p : PState) : PResult Stmt :=
  let (m, p1) := p.matchesTokenP .printKw
  if m then printStatementP fuel p1
  else
    let (m2, p2) := p1.matchesTokenP .leftBrace
    if m2 then blockP declFn fuel p2
    else expressionStatementP fuel p2

/-- `declaration`.  Note: only the `var` branch recovers; errors from
`statement` propagate. -/
def declarationP : Nat → PState → PResult Stmt
  | 0, p => outOfFuel p
  | fuel + 1, p =>
    let (m, p1) := p.matchesTokenP .varKw
    if m then
      match varDeclarationP fuel p1 with
      | .ok r => .ok r
      | .error (_, p2) => .ok (placeholderStmt, synchronizeP fuel p2)
    else statementP (declarationP fuel) fuel p1

/-- The `parse` loop. -/
def parseLoopP : Nat → List Stmt → PState → PResult (List Stmt)
  | 0, _, p => .error (⟨p.peekT, "out of fuel"⟩, p)
  | fuel + 1, acc, p =>
    if p.isAtEndP then .ok (acc, p)
    else
      match declarationP fuel p with
      | .error e => .error e
      | .ok (s, p1) => parseLoopP fuel (acc ++ [s]) p1

/-- Fuel amply covering the parser's recursion depth: fuel is spent only on
token-consuming recursion (statement steps, block and paren nesting, unary
and assignment chains, operator-loop iterations), at most twice per input
token along any call path. -/
def parserFuel (tokens : List Token) : Nat := 2 * tokens.length + 8

/-- `parse`. -/
def parseP (tokens : List Token) : PResult (List Stmt) :=
  parseLoopP (parserFuel tokens) [] ⟨tokens, 0⟩

/-- Parse a token vector as a single expression (the parser's `expression`
entry point, as exercised by the printer round-trip property). -/
def parseExpressionTokens (tokens : List Token) : PResult Expr :=
  expressionP (parserFuel tokens) ⟨tokens, 0⟩

/-- Whether a parser result is a success. -/
def presOk {α : Type} : PResult α → Bool
  | .ok _ => true
  | .error _ => false

/-! ## AST printer (src/expr.rs, `Printer` and `Display for Literal`) -/

/-- Decimal digit character. -/
def digitCh : Nat → Char
  | 0 => '0' | 1 => '1' | 2 => '2' | 3 => '3' | 4 => '4'
  | 5 => '5' | 6 => '6' | 7 => '7' | 8 => '8' | _ => '9'

/-- Decimal digit characters of a natural number, most significant first
(`fuel` bounds the digit count; `n + 1` always suffices). -/
def natDigitsAux : Nat → Nat → List Char
  | 0, _ => []
  | fuel + 1, n =>
    if n = 0 then [] else natDigitsAux fuel (n / 10) ++ [digitCh (n % 10)]

/-- Decimal digit characters of a natural number, most significant first. -/
def natDigitsList (n : Nat) : List Char :=
  if n = 0 then ['0'] else natDigitsAux (n + 1) n

/-- Decimal representation of a natural number. -/
def natToStr (n : Nat) : String :=
  String.mk (natDigitsList n)

/-- Fractional digits of a rational in `[0,1)`, up to 17 places, trailing
zeros trimmed. -/
def fracDigits : Nat → ℚ → List Char
  | 0, _ => []
  | fuel + 1, q =>
    if q = 0 then []
    else
      let d := (q * 10).floor.toNat
      digitCh d :: fracDigits fuel (q * 10 - (d : ℚ))

/-- Model of Rust `{}` formatting of `f64` (shortest round-trip decimal,
integers without a decimal point), on the rational abstraction: integers
print exactly; non-integers print up to 17 fractional digits. -/
def ratDisplay (q : ℚ) : String :=
  if q.den = 1 then
    if q.num < 0 then "-" ++ natToStr (-q.num).toNat else natToStr q.num.toNat
  else
    (if q < 0 then "-" else "") ++
      natToStr (|q|).floor.toNat ++ "." ++ String.mk (fracDigits 17 (|q| - (|q|).floor))

/-- `Display for Literal`. -/
def displayLit : Literal → String
  | .str s => s
  | .number n => ratDisplay n
  | .boolean true => "true"
  | .boolean false => "false"
  | .nil => "nil"

/-- The `Printer` expression visitor (parenthesized prefix form). -/
def printExpr : Expr → String
  | .binary l op r => "(" ++ op.lexeme ++ " " ++ printExpr l ++ " " ++ printExpr r ++ ")"
  | .grouping e => "(group " ++ printExpr e ++ ")"
  | .literal v => displayLit v
  | .unary op r => "(" ++ op.lexeme ++ " " ++ printExpr r ++ ")"
  | .variable name => name.lexeme
  | .assign name v => "(" ++ name.lexeme ++ " " ++ printExpr v ++ ")"

/-! ## Environment (src/environment.rs) -/

/-- `RuntimeError`. -/
inductive RuntimeError where
  | token (t : Token) (message : String)
  | undefinedVariable (name : String)
  deriving DecidableEq, Repr

/-- Association-list model of `HashMap<String, Literal>`. -/
def alistGet : List (String × Literal) → String → Option Literal
  | [], _ => none
  | (k, v) :: rest, name => if k = name then some v else alistGet rest name

/-- `HashMap::insert`: replace in place or append. -/
def alistInsert : List (String × Literal) → String → Literal → List (String × Literal)
  | [], name, v => [(name, v)]
  | (k, w) :: rest, name, v =>
    if k = name then (name, v) :: rest else (k, w) :: alistInsert rest name v

/-- The environment chain: a map of values plus an optional enclosing
environment. -/
inductive Env where
  | mk (values : List (String × Literal)) (enclosing : Option Env)

def envDecEq : (a b : Env) → Decidable (a = b)
  | .mk v1 none, .mk v2 none =>
    match decEq v1 v2 with
    | isTrue h => isTrue (by rw [h])
    | isFalse h => isFalse (fun hh => by cases hh; exact h rfl)
  | .mk v1 (some e1), .mk v2 (some e2) =>
    match decEq v1 v2, envDecEq e1 e2 with
    | isTrue h1, isTrue h2 => isTrue (by rw [h1, h2])
    | isFalse h1, _ => isFalse (fun hh => by cases hh; exact h1 rfl)
    | _, isFalse h2 => isFalse (fun hh => by cases hh; exact h2 rfl)
  | .mk _ none, .mk _ (some _) => isFalse (fun hh => by cases hh)
  | .mk _ (some _), .mk _ none => isFalse (fun hh => by cases hh)

instance : DecidableEq Env := envDecEq

def Env.values : Env → List (String × Literal)
  | .mk v _ => v

def Env.enclosing : Env → Option Env
  | .mk _ e => e

/-- `Environment::new`. -/
def Env.new : Env := .mk [] none

/-- `Environment::new_enclosed`. -/
def Env.newEnclosed (enclosing : Env) : Env := .mk [] (some enclosing)

/-- `Environment::define`: write unconditionally to this map. -/
def Env.define (e : Env) (name : String) (v : Literal) : Env :=
  match e with
  | .mk vals enc => .mk (alistInsert vals name v) enc

/-- `Environment::get`. -/
def Env.get : Env → String → Except RuntimeError Literal
  | .mk vals enc, name =>
    match alistGet vals name with
    | some v => .ok v
    | none =>
      match enc with
      | some e => Env.get e name
      | none => .error (.undefinedVariable name)

/-- `Environment::assign`.  The returned environment is the post-state of
the chain (unchanged on the error path, which performs no write). -/
def Env.assign : Env → String → Literal → Option RuntimeError × Env
  | .mk vals enc, name, v =>
    if (alistGet vals name).isSome then
      (none, .mk (alistInsert vals name v) enc)
    else
      match enc with
      | some e =>
        let (r, e1) := Env.assign e name v
        (r, .mk vals (some e1))
      | none => (some (.undefinedVariable name), .mk vals none)

/-! ## Evaluator (src/interpreter.rs) -/

/-- The `Interpreter` struct's state plus the lines written to standard
output by `print` statements. -/
structure InterpState where
  env : Env
  output : List String
  deriving DecidableEq

/-- `is_truthy`. -/
def isTruthy : Literal → Bool
  | .nil => false
  | .boolean b => b
  | _ => true

/-- The dispatch of `visit_binary` once both operands are evaluated. -/
def binaryOp (operator : Token) (l r : Literal) : Except RuntimeError Literal :=
  match operator.typ with
  | .minus =>
    match l, r with
    | .number a, .number b => .ok (.number (a - b))
    | _, _ => .error (.token operator "Operands must be numbers.")
  | .slash =>
    match l, r with
    | .number a, .number b =>
      if b = 0 then .error (.token operator "Cannot divide by zero.")
      else .ok (.number (a / b))
    | _, _ => .error (.token operator "Operands must be numbers.")
  | .star =>
    match l, r with
    | .number a, .number b => .ok (.number (a * b))
    | _, _ => .error (.token operator "Operands must be numbers.")
  | .plus =>
    match l, r with
    | .number a, .number b => .ok (.number (a + b))
    | .str a, .str b => .ok (.str (a ++ b))
    | _, _ => .error (.token operator "Operands must be two numbers or two strings.")
  | .greater =>
    match l, r with
    | .number a, .number b => .ok (.boolean (a > b))
    | _, _ => .error (.token operator "Operands must be numbers.")
  | .greaterEqual =>
    match l, r with
    | .number a, .number b => .ok (.boolean (a ≥ b))
    | _, _ => .error (.token operator "Operands must be numbers.")
  | .less =>
    match l, r with
    | .number a, .number b => .ok (.boolean (a < b))
    | _, _ => .error (.token operator "Operands must be numbers.")
  | .lessEqual =>
    match l, r with
    | .number a, .number b => .ok (.boolean (a ≤ b))
    | _, _ => .error (.token operator "Operands must be numbers.")
  | .bangEqual => .ok (.boolean (l ≠ r))
  | .equalEqual => .ok (.boolean (l = r))
  | _ => .error (.token operator "unreachable binary operator")

/-- `visit_unary` once the operand is evaluated. -/
def unaryOp (operator : Token) (r : Literal) : Except RuntimeError Literal :=
  match operator.typ with
  | .minus =>
    match r with
    | .number n => .ok (.number (-n))
    | _ => .error (.token operator "Invalid operand for unary minus")
  | .bang => .ok (.boolean (! isTruthy r))
  | _ => .error (.token operator "unreachable unary operator")

/-- Expression evaluation (the `ExpressionVisitor` impl).  The post-state is
returned even on error, matching the persistence of the interpreter's
fields across an `Err`.  (The two `unreachable!()` arms of the source are
modelled as errors.) -/
def evalExpr : Expr → InterpState → Except RuntimeError Literal × InterpState
  | .binary left operator right, s =>
    match evalExpr left s with
    | (.error e, s1) => (.error e, s1)
    | (.ok l, s1) =>
      match evalExpr right s1 with
      | (.error e, s2) => (.error e, s2)
      | (.ok r, s2) => (binaryOp operator l r, s2)
  | .grouping e, s => evalExpr e s
  | .literal v, s => (.ok v, s)
  | .unary operator right, s =>
    match evalExpr right s with
    | (.error e, s1) => (.error e, s1)
    | (.ok r, s1) => (unaryOp operator r, s1)
  | .variable name, s => (s.env.get name.lexeme, s)
  | .assign name value, s =>
    match evalExpr value s with
    | (.error e, s1) => (.error e, s1)
    | (.ok v, s1) =>
      let (r, env1) := s1.env.assign name.lexeme v
      match r with
      | some e => (.error e, { s1 with env := env1 })
      | none => (.ok v, { s1 with env := env1 })

mutual

/-- Statement execution (the `StmtVisitor` impl).  The block arm inlines
`execute_block`; note its early `?` return: on an error the enclosing
environment is NOT restored. -/
def execStmt : Stmt → InterpState → Option RuntimeError × InterpState
  | .expression e, s =>
    match evalExpr e s with
    | (.error err, s1) => (some err, s1)
    | (.ok _, s1) => (none, s1)
  | .print e, s =>
    match evalExpr e s with
    | (.error err, s1) => (some err, s1)
    | (.ok v, s1) => (none, { s1 with output := s1.output ++ [displayLit v] })
  | .varDecl name initializer, s =>
    match (match initializer with
           | some e => evalExpr e s
           | none => (.ok .nil, s)) with
    | (.error err, s1) => (some err, s1)
    | (.ok v, s1) => (none, { s1 with env := s1.env.define name.lexeme v })
  | .block statements, s =>
    let s1 := { s with env := Env.newEnclosed s.env }
    match execStmts statements s1 with
    | (some err, s2) => (some err, s2)
    | (none, s2) => (none, { s2 with env := s2.env.enclosing.getD s2.env })
termination_by structural stmt => stmt

/-- The statement loop shared by `interpret` and `execute_block`: the `?`
operator stops at the first error. -/
def execStmts : List Stmt → InterpState → Option RuntimeError × InterpState
  | [], s => (none, s)
  | stmt :: rest, s =>
    match execStmt stmt s with
    | (some err, s1) => (some err, s1)
    | (none, s1) => execStmts rest s1
termination_by structural l => l

end

/-- `interpret`. -/
def interpret (stmts : List Stmt) (s : InterpState) : Option RuntimeError × InterpState :=
  execStmts stmts s

/-- The initial interpreter state: a fresh globals environment, no output. -/
def initState : InterpState := ⟨Env.new, []⟩

/-- The `run` pipeline (scan, parse, interpret), with scanner and parser
errors collapsed to `none`. -/
def runProgram (source : String) : Option (Option RuntimeError × InterpState) :=
  match scanTokens source with
  | .error _ => none
  | .ok toks =>
    match parseP toks with
    | .error _ => none
    | .ok (stmts, _) => some (interpret stmts initState)

/-- Tokens and statements of `print 1/0;`, staging the pipeline sanity
check below. -/
def toksDiv : List Token :=
  [⟨.printKw, "print", none, 1⟩, ⟨.number, "1", some (.number 1), 1⟩,
   ⟨.slash, "/", none, 1⟩, ⟨.number, "0", some (.number 0), 1⟩,
   ⟨.semiColon, ";", none, 1⟩, ⟨.eof, "", none, 1⟩]

def stmtsDiv : List Stmt :=
  [.print (.binary (.literal (.number 1)) ⟨.slash, "/", none, 1⟩ (.literal (.number 0)))]

example : scanTokens "print 1/0;" = .ok toksDiv := by decide

example : parseP toksDiv = .ok (stmtsDiv, ⟨toksDiv, 5⟩) := rfl

example : interpret stmtsDiv initState =
    (some (.token ⟨.slash, "/", none, 1⟩ "Cannot divide by zero."), initState) := rfl

/-! ## List positioning helpers -/

theorem getQ_append_add {α : Type} (A l : List α) (k : Nat) :
    (A ++ l).get? (A.length + k) = l.get? k := by
  induction A with
  | nil => simp
  | cons a A ih =>
    have h : (a :: A).length + k = (A.length + k) + 1 := by simp; omega
    rw [List.cons_append, h, List.get?_cons_succ]
    exact ih

theorem getQ_append_self {α : Type} (A l : List α) :
    (A ++ l).get? A.length = l.head? := by
  have := getQ_append_add A l 0
  cases l <;> simpa using this

theorem getD_append_self {α : Type} (A : List α) (c : α) (r : List α) (dflt : α) :
    (A ++ c :: r).getD A.length dflt = c := by
  induction A with
  | nil => rfl
  | cons a A ih => simpa using ih

theorem slice_middle {α : Type} (A m B : List α) :
    ((A ++ m ++ B).take (A.length + m.length)).drop A.length = m := by
  have h1 : A ++ m ++ B = (A ++ m) ++ B := by simp
  have h2 : A.length + m.length = (A ++ m).length := by simp
  rw [h1, h2, List.take_left, List.drop_left]

theorem getQ_eq_head_drop {α : Type} (l : List α) (n : Nat) :
    l.get? n = (l.drop n).head? := by
  induction l generalizing n with
  | nil => simp
  | cons a l ih =>
    cases n with
    | zero => rfl
    | succ m => simpa using ih m

theorem getE_eq_head_drop {α : Type} (l : List α) (n : Nat) :
    l[n]? = (l.drop n).head? := by
  rw [← List.get?_eq_getElem?]
  exact getQ_eq_head_drop l n

/-! ## C9: a trailing dot after a digit run -/

/-- `digitsLoop` consumes exactly a maximal digit run. -/
theorem digitsLoop_drop (run : List Char) :
    ∀ (fuel : Nat) (S B : List Char) (toks : List Token) (sp n line : Nat),
      S.drop n = run ++ B →
      (∀ c ∈ run, c.isDigit = true) →
      (∀ c, B.head? = some c → c.isDigit = false) →
      run.length ≤ fuel →
      digitsLoop fuel ⟨S, toks, sp, n, line⟩ = ⟨S, toks, sp, n + run.length, line⟩ := by
  induction run with
  | nil =>
    intro fuel S B toks sp n line hdrop _ hB _
    have hpeek : (⟨S, toks, sp, n, line⟩ : ScanState).peekCh = B.head? := by
      simp [ScanState.peekCh, getQ_eq_head_drop, getE_eq_head_drop, hdrop]
    cases fuel with
    | zero => simp [digitsLoop]
    | succ f =>
      cases hBh : B.head? with
      | none => simp [digitsLoop, hpeek, hBh]
      | some b => simp [digitsLoop, hpeek, hBh, hB b hBh]
  | cons c run' ih =>
    intro fuel S B toks sp n line hdrop hrun hB hfuel
    cases fuel with
    | zero => simp at hfuel
    | succ f =>
      have hpeek : (⟨S, toks, sp, n, line⟩ : ScanState).peekCh = some c := by
        simp [ScanState.peekCh, getQ_eq_head_drop, getE_eq_head_drop, hdrop]
      have hdig := hrun c (by simp)
      have hdrop2 : S.drop (n + 1) = run' ++ B := by
        rw [← List.tail_drop, hdrop]
        rfl
      have hstep := ih f S B toks sp (n + 1) line hdrop2
        (fun x hx => hrun x (by simp [hx])) hB (by simp at hfuel; omega)
      calc digitsLoop (f + 1) ⟨S, toks, sp, n, line⟩
          = digitsLoop f ⟨S, toks, sp, n + 1, line⟩ := by
            simp [digitsLoop, hpeek, hdig, ScanState.advanceCh]
        _ = ⟨S, toks, sp, n + 1 + run'.length, line⟩ := hstep
        _ = ⟨S, toks, sp, n + (c :: run').length, line⟩ := by simp; omega

/-- `identLoop` consumes exactly a maximal identifier-character run. -/
theorem identLoop_drop (run : List Char) :
    ∀ (fuel : Nat) (S B : List Char) (toks : List Token) (sp n line : Nat),
      S.drop n = run ++ B →
      (∀ c ∈ run, isIdentCh c = true) →
      (∀ c, B.head? = some c → isIdentCh c = false) →
      run.length ≤ fuel →
      identLoop fuel ⟨S, toks, sp, n, line⟩ = ⟨S, toks, sp, n + run.length, line⟩ := by
  induction run with
  | nil =>
    intro fuel S B toks sp n line hdrop _ hB _
    have hpeek : (⟨S, toks, sp, n, line⟩ : ScanState).peekCh = B.head? := by
      simp [ScanState.peekCh, getQ_eq_head_drop, getE_eq_head_drop, hdrop]
    cases fuel with
    | zero => simp [identLoop]
    | succ f =>
      cases hBh : B.head? with
      | none => simp [identLoop, hpeek, hBh]
      | some b => simp [identLoop, hpeek, hBh, hB b hBh]
  | cons c run' ih =>
    intro fuel S B toks sp n line hdrop hrun hB hfuel
    cases fuel with
    | zero => simp at hfuel
    | succ f =>
      have hpeek : (⟨S, toks, sp, n, line⟩ : ScanState).peekCh = some c := by
        simp [ScanState.peekCh, getQ_eq_head_drop, getE_eq_head_drop, hdrop]
      have hid := hrun c (by simp)
      have hdrop2 : S.drop (n + 1) = run' ++ B := by
        rw [← List.tail_drop, hdrop]
        rfl
      have hstep := ih f S B toks sp (n + 1) line hdrop2
        (fun x hx => hrun x (by simp [hx])) hB (by simp at hfuel; omega)
      calc identLoop (f + 1) ⟨S, toks, sp, n, line⟩
          = identLoop f ⟨S, toks, sp, n + 1, line⟩ := by
            simp [identLoop, hpeek, hid, ScanState.advanceCh]
        _ = ⟨S, toks, sp, n + 1 + run'.length, line⟩ := hstep
        _ = ⟨S, toks, sp, n + (c :: run').length, line⟩ := by simp; omega

/-- `number` (entered with the first digit consumed) consumes the rest of
the digit run and stops there when what follows is not a `.` followed by a
digit, emitting one Number token whose lexeme is exactly the digit run. -/
theorem scanNumber_spec (d : Char) (ds B : List Char) (fuel : Nat) (A : List Char)
    (toks : List Token) (line : Nat)
    (hrun : ∀ c ∈ (d :: ds), c.isDigit = true)
    (hB : ∀ c, B.head? = some c → c.isDigit = false)
    (hnofrac : ∀ b, B.tail.head? = some b → b.isDigit = false)
    (hfuel : ds.length ≤ fuel) :
    scanNumber fuel ⟨A ++ (d :: ds) ++ B, toks, A.length, A.length + 1, line⟩ =
      ⟨A ++ (d :: ds) ++ B,
       toks ++ [⟨.number, String.mk (d :: ds), some (.number (parseNum (d :: ds))), line⟩],
       A.length, A.length + (d :: ds).length, line⟩ := by
  have hS1 : (A ++ (d :: ds) ++ B).drop (A.length + 1) = ds ++ B := by
    have h1 : A ++ (d :: ds) ++ B = (A ++ [d]) ++ (ds ++ B) := by simp
    have h2 : (A ++ [d]).length = A.length + 1 := by simp
    rw [h1, ← h2, List.drop_left]
  have hloop := digitsLoop_drop ds fuel (A ++ (d :: ds) ++ B) B toks A.length
    (A.length + 1) line hS1 (fun x hx => hrun x (by simp [hx])) hB hfuel
  have hntot : A.length + 1 + ds.length = A.length + (d :: ds).length := by simp; omega
  rw [hntot] at hloop
  have hS2 : (A ++ (d :: ds) ++ B).drop (A.length + (d :: ds).length) = B := by
    have h1 : A ++ (d :: ds) ++ B = (A ++ (d :: ds)) ++ B := by simp
    have h2 : (A ++ (d :: ds)).length = A.length + (d :: ds).length := by simp
    rw [h1, ← h2, List.drop_left]
  have hnext : ((⟨A ++ (d :: ds) ++ B, toks, A.length, A.length + (d :: ds).length, line⟩ :
      ScanState).peekNext.elim false Char.isDigit) = false := by
    simp only [ScanState.peekNext]
    by_cases hc : A.length + (d :: ds).length + 1 ≥ (A ++ (d :: ds) ++ B).length
    · rw [if_pos hc]
      rfl
    · rw [if_neg hc]
      have hg : (A ++ (d :: ds) ++ B).get? (A.length + (d :: ds).length + 1)
          = B.tail.head? := by
        rw [getQ_eq_head_drop, ← List.tail_drop, hS2]
      rw [hg]
      cases hb : B.tail.head? with
      | none => rfl
      | some b => simp [hnofrac b hb]
  have hcond : ¬ ((⟨A ++ (d :: ds) ++ B, toks, A.length, A.length + (d :: ds).length, line⟩ :
      ScanState).peekCh = some '.' ∧
      ((⟨A ++ (d :: ds) ++ B, toks, A.length, A.length + (d :: ds).length, line⟩ :
      ScanState).peekNext.elim false Char.isDigit) = true) := by
    rintro ⟨-, h2⟩
    rw [hnext] at h2
    exact Bool.false_ne_true h2
  have hval : List.drop A.length (List.take (A.length + (ds.length + 1)) (A ++ d :: (ds ++ B)))
      = d :: ds := by simpa using slice_middle A (d :: ds) B
  simp only [scanNumber]
  rw [hloop]
  rw [if_neg hcond]
  simp [ScanState.addTokenLit, ScanState.valueFor, hval]

/-- `scan_token` at a `.` emits a Dot token of lexeme "." and consumes
exactly the dot. -/
theorem scanToken_dot (A rest : List Char) (toks : List Token) (line fuel : Nat) :
    scanToken fuel ⟨A ++ '.' :: rest, toks, A.length, A.length, line⟩ =
      .ok ⟨A ++ '.' :: rest, toks ++ [⟨.dot, ".", none, line⟩],
        A.length, A.length + 1, line⟩ := by
  have hadv : (⟨A ++ '.' :: rest, toks, A.length, A.length, line⟩ : ScanState).advanceCh
      = ('.', ⟨A ++ '.' :: rest, toks, A.length, A.length + 1, line⟩) := by
    unfold ScanState.advanceCh
    rw [getD_append_self]
  have hsl : ((A ++ '.' :: rest).take (A.length + 1)).drop A.length = ['.'] := by
    simpa using slice_middle A ['.'] rest
  unfold scanToken
  rw [hadv]
  show Except.ok ((⟨A ++ '.' :: rest, toks, A.length, A.length + 1, line⟩ :
    ScanState).addTok .dot) = _
  simp [ScanState.addTok, ScanState.addTokenLit, ScanState.valueFor, hsl]

/--
C9: when the scanner reads a run of digits followed by a `.` that is not
followed by another digit, the dot is not consumed: `number` emits one
Number token covering exactly the digits, the next `scan_token` turns the
dot into a separate Dot token, and in particular `1.` scans as `Number(1)`
then `Dot`.
-/
theorem number_stops_before_trailing_dot
    (d : Char) (ds rest A : List Char) (toks : List Token) (line fuel : Nat)
    (hrun : ∀ c ∈ (d :: ds), c.isDigit = true)
    (hrest : ∀ c, rest.head? = some c → c.isDigit = false)
    (hfuel : ds.length ≤ fuel) :
    scanNumber fuel ⟨A ++ (d :: ds) ++ '.' :: rest, toks, A.length, A.length + 1, line⟩ =
      ⟨A ++ (d :: ds) ++ '.' :: rest,
       toks ++ [⟨.number, String.mk (d :: ds), some (.number (parseNum (d :: ds))), line⟩],
       A.length, A.length + (d :: ds).length, line⟩
    ∧ (∀ (toks2 : List Token) (fuel2 : Nat),
        scanToken fuel2 ⟨A ++ (d :: ds) ++ '.' :: rest, toks2,
            A.length + (d :: ds).length, A.length + (d :: ds).length, line⟩ =
          .ok ⟨A ++ (d :: ds) ++ '.' :: rest, toks2 ++ [⟨.dot, ".", none, line⟩],
            A.length + (d :: ds).length, A.length + (d :: ds).length + 1, line⟩)
    ∧ scanTokens "1." = .ok [⟨.number, "1", some (.number 1), 1⟩, ⟨.dot, ".", none, 1⟩,
        ⟨.eof, "", none, 1⟩] := by
  refine ⟨?_, ?_, by decide⟩
  · exact scanNumber_spec d ds ('.' :: rest) fuel A toks line hrun
      (by rintro c hc; cases hc; decide) hrest hfuel
  · intro toks2 fuel2
    have hre : A ++ (d :: ds) ++ '.' :: rest = (A ++ (d :: ds)) ++ '.' :: rest := by simp
    have hlen2 : A.length + (d :: ds).length = (A ++ (d :: ds)).length := by simp
    rw [hre, hlen2]
    exact scanToken_dot (A ++ (d :: ds)) rest toks2 line fuel2

/-- Witness for `number_stops_before_trailing_dot` at the source `1.`. -/
theorem number_stops_before_trailing_dot_witness :
    scanNumber 0 ⟨['1', '.'], [], 0, 1, 1⟩ =
      ⟨['1', '.'], [⟨.number, "1", some (.number 1), 1⟩], 0, 1, 1⟩
    ∧ scanToken 0 ⟨['1', '.'], [], 1, 1, 1⟩ =
        .ok ⟨['1', '.'], [⟨.dot, ".", none, 1⟩], 1, 2, 1⟩
    ∧ scanTokens "1." = .ok [⟨.number, "1", some (.number 1), 1⟩, ⟨.dot, ".", none, 1⟩,
        ⟨.eof, "", none, 1⟩] := by
  have h := number_stops_before_trailing_dot '1' [] [] [] [] 1 0
    (by decide) (by simp) (by simp)
  refine ⟨by simpa using h.1, by simpa using h.2.1 [] 0, h.2.2⟩

/-! ## C3: lexemes are source slices and lines count newlines -/

/-- Number of newline characters strictly before position `n`. -/
def nlBefore (src : List Char) (n : Nat) : Nat :=
  ((src.take n).count '\n')

/-- The per-token invariant: the lexeme is a source slice `[s, e)` and the
attached line is one plus the newlines strictly before the slice's END. -/
def TokOk (src : List Char) (t : Token) : Prop :=
  ∃ s e, s ≤ e ∧ e ≤ src.length ∧
    t.lexeme = String.mk ((src.take e).drop s) ∧
    t.line = 1 + nlBefore src e

/-- The scanner-state invariant maintained by every `scan_token` step. -/
def ScanInv (st : ScanState) : Prop :=
  st.startPos ≤ st.current ∧ st.current ≤ st.source.length ∧
  st.line = 1 + nlBefore st.source st.current ∧
  ∀ t ∈ st.tokens, TokOk st.source t

/-- What the scanner loops leave untouched. -/
def SameShape (st st2 : ScanState) : Prop :=
  st2.source = st.source ∧ st2.tokens = st.tokens ∧ st2.startPos = st.startPos ∧
  st.current ≤ st2.current

theorem sameShape_rfl (st : ScanState) : SameShape st st :=
  ⟨rfl, rfl, rfl, Nat.le_refl _⟩

theorem sameShape_trans {a b c : ScanState} (h1 : SameShape a b) (h2 : SameShape b c) :
    SameShape a c :=
  ⟨h2.1.trans h1.1, h2.2.1.trans h1.2.1, h2.2.2.1.trans h1.2.2.1,
   h1.2.2.2.trans h2.2.2.2⟩

theorem getQ_of_getD {α : Type} (l : List α) (n : Nat) (d : α) (h : n < l.length) :
    l.get? n = some (l.getD n d) := by
  induction l generalizing n with
  | nil => simp at h
  | cons a l ih =>
    cases n with
    | zero => rfl
    | succ m => simpa using ih m (by simpa using h)

theorem nlBefore_succ (src : List Char) (n : Nat) (c : Char) (h : src.get? n = some c) :
    nlBefore src (n + 1) = nlBefore src n + (if c = '\n' then 1 else 0) := by
  have htake : src.take (n + 1) = src.take n ++ [c] := by
    have h2 : src[n]? = some c := by rw [← List.get?_eq_getElem?]; exact h
    rw [List.take_succ, h2]
    rfl
  simp only [nlBefore, htake, List.count_append]
  by_cases hc : c = '\n' <;> simp [hc, List.count_cons]

/-- Advancing over a character that is not a newline preserves the
invariant with the line unchanged. -/
theorem scanInv_advance_ne (st : ScanState) (h : ScanInv st)
    (hlt : st.current < st.source.length)
    (hc : st.source.getD st.current ' ' ≠ '\n') :
    ScanInv { st with current := st.current + 1 } := by
  obtain ⟨h1, h2, h3, h4⟩ := h
  refine ⟨by simpa using Nat.le_succ_of_le h1, by simpa using hlt, ?_, by simpa using h4⟩
  have := nlBefore_succ st.source st.current _ (getQ_of_getD st.source st.current ' ' hlt)
  simp only [if_neg hc, Nat.add_zero] at this
  simpa [this] using h3

/-- Advancing over a newline with the line counter incremented preserves
the invariant. -/
theorem scanInv_advance_nl (st : ScanState) (h : ScanInv st)
    (hlt : st.current < st.source.length)
    (hc : st.source.getD st.current ' ' = '\n') :
    ScanInv { st with current := st.current + 1, line := st.line + 1 } := by
  obtain ⟨h1, h2, h3, h4⟩ := h
  refine ⟨by simpa using Nat.le_succ_of_le h1, by simpa using hlt, ?_, by simpa using h4⟩
  have := nlBefore_succ st.source st.current _ (getQ_of_getD st.source st.current ' ' hlt)
  simp only [hc, if_pos] at this
  simp only [this]
  omega

theorem peek_lt (st : ScanState) (c : Char) (h : st.peekCh = some c) :
    st.current < st.source.length := by
  by_contra hge
  rw [ScanState.peekCh, List.get?_eq_getElem?, List.getElem?_eq_none (by omega)] at h
  exact Option.noConfusion h

theorem peek_getD (st : ScanState) (c : Char) (h : st.peekCh = some c) :
    st.source.getD st.current ' ' = c := by
  have hlt := peek_lt st c h
  have := getQ_of_getD st.source st.current ' ' hlt
  rw [ScanState.peekCh] at h
  rw [this] at h
  exact (Option.some.injEq _ _).mp h

/-- Pushing a token whose lexeme is the `[startPos, current)` slice
preserves the invariant. -/
theorem scanInv_addTokenLit (st : ScanState) (typ : TokenType) (lit : Option Literal)
    (h : ScanInv st) : ScanInv (st.addTokenLit typ lit) := by
  obtain ⟨h1, h2, h3, h4⟩ := h
  refine ⟨by simpa [ScanState.addTokenLit] using h1, by simpa [ScanState.addTokenLit] using h2,
    by simpa [ScanState.addTokenLit] using h3, ?_⟩
  intro t ht
  simp only [ScanState.addTokenLit, List.mem_append, List.mem_singleton] at ht
  rcases ht with ht | ht
  · exact h4 t ht
  · subst ht
    exact ⟨st.startPos, st.current, h1, h2, rfl, h3⟩

theorem scanInv_matchesCh (st : ScanState) (ch : Char) (hch : ch ≠ '\n')
    (h : ScanInv st) :
    ScanInv (ScanState.matchesCh ch st).2 ∧ SameShape st (ScanState.matchesCh ch st).2 := by
  unfold ScanState.matchesCh
  by_cases hend : st.isAtEnd = true
  · simp only [hend, if_true]
    exact ⟨h, sameShape_rfl st⟩
  · simp only [hend, Bool.false_eq_true, if_false]
    by_cases hne : st.source.getD st.current ' ' ≠ ch
    · simp only [if_pos hne]
      exact ⟨h, sameShape_rfl st⟩
    · simp only [if_neg hne]
      push_neg at hne
      have hlt : st.current < st.source.length := by
        simp [ScanState.isAtEnd] at hend
        omega
      refine ⟨scanInv_advance_ne st h hlt (by rw [hne]; exact hch), rfl, rfl, rfl, ?_⟩
      simp

theorem digitsLoop_inv (fuel : Nat) :
    ∀ st : ScanState, ScanInv st →
      ScanInv (digitsLoop fuel st) ∧ SameShape st (digitsLoop fuel st) := by
  induction fuel with
  | zero =>
    intro st h
    simp only [digitsLoop]
    exact ⟨h, sameShape_rfl st⟩
  | succ f ih =>
    intro st h
    simp only [digitsLoop]
    cases hp : st.peekCh with
    | none => exact ⟨h, sameShape_rfl st⟩
    | some c =>
      by_cases hd : c.isDigit = true
      · simp only [hd, if_true]
        have hlt := peek_lt st c hp
        have hcne : c ≠ '\n' := by
          rintro rfl
          exact absurd hd (by decide)
        have hinv : ScanInv (st.advanceCh).2 := by
          simp only [ScanState.advanceCh]
          exact scanInv_advance_ne st h hlt (by rw [peek_getD st c hp]; exact hcne)
        obtain ⟨hi, hs⟩ := ih (st.advanceCh).2 hinv
        have hstep : SameShape st (st.advanceCh).2 :=
          ⟨rfl, rfl, rfl, by simp [ScanState.advanceCh]⟩
        exact ⟨hi, sameShape_trans hstep hs⟩
      · simp only [hd, Bool.false_eq_true, if_false]
        exact ⟨h, sameShape_rfl st⟩

theorem identLoop_inv (fuel : Nat) :
    ∀ st : ScanState, ScanInv st →
      ScanInv (identLoop fuel st) ∧ SameShape st (identLoop fuel st) := by
  induction fuel with
  | zero =>
    intro st h
    simp only [identLoop]
    exact ⟨h, sameShape_rfl st⟩
  | succ f ih =>
    intro st h
    simp only [identLoop]
    cases hp : st.peekCh with
    | none => exact ⟨h, sameShape_rfl st⟩
    | some c =>
      by_cases hd : isIdentCh c = true
      · simp only [hd, if_true]
        have hlt := peek_lt st c hp
        have hcne : c ≠ '\n' := by
          rintro rfl
          exact absurd hd (by decide)
        have hinv : ScanInv (st.advanceCh).2 := by
          simp only [ScanState.advanceCh]
          exact scanInv_advance_ne st h hlt (by rw [peek_getD st c hp]; exact hcne)
        obtain ⟨hi, hs⟩ := ih (st.advanceCh).2 hinv
        have hstep : SameShape st (st.advanceCh).2 :=
          ⟨rfl, rfl, rfl, by simp [ScanState.advanceCh]⟩
        exact ⟨hi, sameShape_trans hstep hs⟩
      · simp only [hd, Bool.false_eq_true, if_false]
        exact ⟨h, sameShape_rfl st⟩

theorem lineCommentLoop_inv (fuel : Nat) :
    ∀ st : ScanState, ScanInv st →
      ScanInv (lineCommentLoop fuel st) ∧ SameShape st (lineCommentLoop fuel st) := by
  induction fuel with
  | zero =>
    intro st h
    simp only [lineCommentLoop]
    exact ⟨h, sameShape_rfl st⟩
  | succ f ih =>
    intro st h
    simp only [lineCommentLoop]
    by_cases hcond : st.peekCh ≠ some '\n' ∧ ¬ st.isAtEnd = true
    · simp only [if_pos hcond]
      have hlt : st.current < st.source.length := by
        have := hcond.2
        simp [ScanState.isAtEnd] at this
        omega
      have hcne : st.source.getD st.current ' ' ≠ '\n' := by
        intro hgd
        have : st.peekCh = some '\n' := by
          rw [ScanState.peekCh, getQ_of_getD st.source st.current ' ' hlt, hgd]
        exact hcond.1 this
      have hinv : ScanInv (st.advanceCh).2 := by
        simp only [ScanState.advanceCh]
        exact scanInv_advance_ne st h hlt hcne
      obtain ⟨hi, hs⟩ := ih (st.advanceCh).2 hinv
      have hstep : SameShape st (st.advanceCh).2 :=
        ⟨rfl, rfl, rfl, by simp [ScanState.advanceCh]⟩
      exact ⟨hi, sameShape_trans hstep hs⟩
    · simp only [if_neg hcond]
      exact ⟨h, sameShape_rfl st⟩

theorem stringLoop_inv (fuel : Nat) :
    ∀ st : ScanState, ScanInv st →
      ScanInv (stringLoop fuel st) ∧ SameShape st (stringLoop fuel st) := by
  induction fuel with
  | zero =>
    intro st h
    simp only [stringLoop]
    exact ⟨h, sameShape_rfl st⟩
  | succ f ih =>
    intro st h
    simp only [stringLoop]
    by_cases hcond : st.peekCh ≠ some '"' ∧ ¬ st.isAtEnd = true
    · simp only [if_pos hcond]
      have hlt : st.current < st.source.length := by
        have := hcond.2
        simp [ScanState.isAtEnd] at this
        omega
      by_cases hnl : st.source.getD st.current ' ' = '\n'
      · simp only [ScanState.advanceCh, hnl, if_pos]
        have hinv := scanInv_advance_nl st h hlt hnl
        obtain ⟨hi, hs⟩ := ih _ hinv
        have hstep : SameShape st { st with current := st.current + 1, line := st.line + 1 } :=
          ⟨rfl, rfl, rfl, by simp⟩
        exact ⟨hi, sameShape_trans hstep hs⟩
      · simp only [ScanState.advanceCh, hnl, if_neg, ite_false]
        have hinv := scanInv_advance_ne st h hlt hnl
        obtain ⟨hi, hs⟩ := ih _ hinv
        have hstep : SameShape st { st with current := st.current + 1 } :=
          ⟨rfl, rfl, rfl, by simp⟩
        exact ⟨hi, sameShape_trans hstep hs⟩
    · simp only [if_neg hcond]
      exact ⟨h, sameShape_rfl st⟩

theorem starLoop_inv (fuel : Nat) :
    ∀ st : ScanState, ScanInv st →
      ScanInv (starLoop fuel st) ∧ SameShape st (starLoop fuel st) := by
  induction fuel with
  | zero =>
    intro st h
    simp only [starLoop]
    exact ⟨h, sameShape_rfl st⟩
  | succ f ih =>
    intro st h
    simp only [starLoop]
    by_cases hcond : st.peekCh ≠ some '*' ∧ ¬ st.isAtEnd = true
    · simp only [if_pos hcond]
      have hlt : st.current < st.source.length := by
        have := hcond.2
        simp [ScanState.isAtEnd] at this
        omega
      by_cases hnl : st.source.getD st.current ' ' = '\n'
      · simp only [ScanState.advanceCh, hnl, if_pos]
        have hinv := scanInv_advance_nl st h hlt hnl
        obtain ⟨hi, hs⟩ := ih _ hinv
        have hstep : SameShape st { st with current := st.current + 1, line := st.line + 1 } :=
          ⟨rfl, rfl, rfl, by simp⟩
        exact ⟨hi, sameShape_trans hstep hs⟩
      · simp only [ScanState.advanceCh, hnl, if_neg, ite_false]
        have hinv := scanInv_advance_ne st h hlt hnl
        obtain ⟨hi, hs⟩ := ih _ hinv
        have hstep : SameShape st { st with current := st.current + 1 } :=
          ⟨rfl, rfl, rfl, by simp⟩
        exact ⟨hi, sameShape_trans hstep hs⟩
    · simp only [if_neg hcond]
      exact ⟨h, sameShape_rfl st⟩

theorem stringLoop_exit (fuel : Nat) :
    ∀ st : ScanState, st.source.length - st.current ≤ fuel →
      (stringLoop fuel st).peekCh = some '"' ∨ (stringLoop fuel st).isAtEnd = true := by
  induction fuel with
  | zero =>
    intro st hf
    simp only [stringLoop]
    right
    simp [ScanState.isAtEnd]
    omega
  | succ f ih =>
    intro st hf
    simp only [stringLoop]
    by_cases hcond : st.peekCh ≠ some '"' ∧ ¬ st.isAtEnd = true
    · simp only [if_pos hcond]
      have hlt : st.current < st.source.length := by
        have := hcond.2
        simp [ScanState.isAtEnd] at this
        omega
      by_cases hnl : st.source.getD st.current ' ' = '\n' <;>
        simp only [ScanState.advanceCh, hnl, if_pos, if_neg, ite_false, ite_true] <;>
        exact ih _ (by simp; omega)
    · simp only [if_neg hcond]
      rcases Classical.not_and_iff_or_not_not.mp hcond with hq | hq
      · left
        exact Classical.not_not.mp hq
      · right
        exact Bool.of_not_eq_false (by simpa using hq)

theorem starLoop_exit (fuel : Nat) :
    ∀ st : ScanState, st.source.length - st.current ≤ fuel →
      (starLoop fuel st).peekCh = some '*' ∨ (starLoop fuel st).isAtEnd = true := by
  induction fuel with
  | zero =>
    intro st hf
    simp only [starLoop]
    right
    simp [ScanState.isAtEnd]
    omega
  | succ f ih =>
    intro st hf
    simp only [starLoop]
    by_cases hcond : st.peekCh ≠ some '*' ∧ ¬ st.isAtEnd = true
    · simp only [if_pos hcond]
      have hlt : st.current < st.source.length := by
        have := hcond.2
        simp [ScanState.isAtEnd] at this
        omega
      by_cases hnl : st.source.getD st.current ' ' = '\n' <;>
        simp only [ScanState.advanceCh, hnl, if_pos, if_neg, ite_false, ite_true] <;>
        exact ih _ (by simp; omega)
    · simp only [if_neg hcond]
      rcases Classical.not_and_iff_or_not_not.mp hcond with hq | hq
      · left
        exact Classical.not_not.mp hq
      · right
        exact Bool.of_not_eq_false (by simpa using hq)

theorem scanString_inv (fuel : Nat) (st st2 : ScanState) (h : ScanInv st)
    (hfuel : st.source.length - st.current ≤ fuel)
    (hok : scanString fuel st = .ok st2) :
    ScanInv st2 ∧ st2.source = st.source := by
  obtain ⟨hi1, hsh1⟩ := stringLoop_inv fuel st h
  have hexit := stringLoop_exit fuel st hfuel
  unfold scanString at hok
  by_cases hend : (stringLoop fuel st).isAtEnd = true
  · rw [if_pos hend] at hok
    exact Except.noConfusion hok
  · rw [if_neg hend] at hok
    have hpk : (stringLoop fuel st).peekCh = some '"' := by
      rcases hexit with hq | hq
      · exact hq
      · exact absurd hq hend
    have hlt := peek_lt _ _ hpk
    have hquote := peek_getD _ _ hpk
    have hinv2 : ScanInv ((stringLoop fuel st).advanceCh).2 := by
      simp only [ScanState.advanceCh]
      exact scanInv_advance_ne _ hi1 hlt (by rw [hquote]; decide)
    injection hok with hok2
    subst hok2
    refine ⟨scanInv_addTokenLit _ _ _ hinv2, ?_⟩
    simpa [ScanState.addTokenLit, ScanState.advanceCh] using hsh1.1

theorem scanNumber_inv (fuel : Nat) (st : ScanState) (h : ScanInv st) :
    ScanInv (scanNumber fuel st) ∧ (scanNumber fuel st).source = st.source := by
  obtain ⟨hi1, hsh1⟩ := digitsLoop_inv fuel st h
  set st1 := digitsLoop fuel st with hst1
  have hnext : ∀ st2 : ScanState, ScanInv st2 → st2.source = st.source →
      ScanInv (st2.addTokenLit .number
        (some (.number (parseNum ((st2.source.take st2.current).drop st2.startPos))))) ∧
      (st2.addTokenLit .number
        (some (.number (parseNum ((st2.source.take st2.current).drop st2.startPos))))).source
        = st.source := by
    intro st2 hi2 hs2
    exact ⟨scanInv_addTokenLit st2 _ _ hi2, by simpa [ScanState.addTokenLit] using hs2⟩
  simp only [scanNumber]
  rw [← hst1]
  by_cases hcond : st1.peekCh = some '.' ∧ st1.peekNext.elim false Char.isDigit = true
  · rw [if_pos hcond]
    have hlt := peek_lt _ _ hcond.1
    have hdot := peek_getD _ _ hcond.1
    have hinv2 : ScanInv (st1.advanceCh).2 := by
      simp only [ScanState.advanceCh]
      exact scanInv_advance_ne _ hi1 hlt (by rw [hdot]; decide)
    obtain ⟨hi3, hsh3⟩ := digitsLoop_inv fuel (st1.advanceCh).2 hinv2
    have hsrc3 : (digitsLoop fuel (st1.advanceCh).2).source = st.source := by
      rw [hsh3.1]
      simpa [ScanState.advanceCh] using hsh1.1
    exact hnext _ hi3 hsrc3
  · rw [if_neg hcond]
    exact hnext st1 hi1 hsh1.1

theorem scanIdentifier_inv (fuel : Nat) (st : ScanState) (h : ScanInv st) :
    ScanInv (scanIdentifier fuel st) ∧ (scanIdentifier fuel st).source = st.source := by
  obtain ⟨hi1, hsh1⟩ := identLoop_inv fuel st h
  simp only [scanIdentifier]
  split <;>
    exact ⟨scanInv_addTokenLit _ _ _ hi1, by simpa [ScanState.addTokenLit] using hsh1.1⟩

theorem commentLoop_inv (fuel : Nat) :
    ∀ st st2 : ScanState, ScanInv st → st.source.length - st.current < fuel →
      commentLoop fuel st = .ok st2 →
      ScanInv st2 ∧ SameShape st st2 := by
  induction fuel with
  | zero =>
    intro st st2 h hf hok
    omega
  | succ f ih =>
    intro st st2 h hf hok
    obtain ⟨hi1, hsh1⟩ := starLoop_inv f st h
    have hexit := starLoop_exit f st (by omega)
    simp only [commentLoop] at hok
    by_cases hend : (starLoop f st).isAtEnd = true
    · rw [if_pos hend] at hok
      exact Except.noConfusion hok
    · rw [if_neg hend] at hok
      have hpk : (starLoop f st).peekCh = some '*' := by
        rcases hexit with hq | hq
        · exact hq
        · exact absurd hq hend
      have hlt := peek_lt _ _ hpk
      have hstar := peek_getD _ _ hpk
      have hinv2 : ScanInv ((starLoop f st).advanceCh).2 := by
        simp only [ScanState.advanceCh]
        exact scanInv_advance_ne _ hi1 hlt (by rw [hstar]; decide)
      have hshape2 : SameShape st ((starLoop f st).advanceCh).2 :=
        sameShape_trans hsh1 ⟨rfl, rfl, rfl, by simp [ScanState.advanceCh]⟩
      obtain ⟨hi3, hsh3⟩ := scanInv_matchesCh ((starLoop f st).advanceCh).2 '/' (by decide) hinv2
      have hshape3 : SameShape st (ScanState.matchesCh '/' ((starLoop f st).advanceCh).2).2 :=
        sameShape_trans hshape2 hsh3
      by_cases hm : (ScanState.matchesCh '/' ((starLoop f st).advanceCh).2).1 = true
      · rw [if_pos hm] at hok
        injection hok with hok2
        subst hok2
        exact ⟨hi3, hshape3⟩
      · rw [if_neg hm] at hok
        have hlenS : (starLoop f st).source.length = st.source.length := by rw [hsh1.1]
        have hcurB : ((starLoop f st).advanceCh).2.current = (starLoop f st).current + 1 := by
          simp [ScanState.advanceCh]
        have b1 : st.current ≤ (starLoop f st).current := hsh1.2.2.2
        have b2 := hsh3.2.2.2
        rw [hcurB] at b2
        have e1 : (ScanState.matchesCh '/' ((starLoop f st).advanceCh).2).2.source
            = st.source := hshape3.1
        refine (ih _ st2 hi3 ?_ hok).imp id (sameShape_trans hshape3)
        rw [e1]
        omega

theorem scanToken_inv (fuel : Nat) (st st2 : ScanState) (h : ScanInv st)
    (hlt : st.current < st.source.length)
    (hfuel : st.source.length - st.current < fuel)
    (hok : scanToken fuel st = .ok st2) :
    ScanInv st2 ∧ st2.source = st.source := by
  simp only [scanToken, ScanState.advanceCh] at hok
  split at hok
  -- '('
  · injection hok with h2
    subst h2
    rename_i heq
    exact ⟨scanInv_addTokenLit _ _ _ (scanInv_advance_ne st h hlt (by rw [heq]; decide)),
      by simp [ScanState.addTok, ScanState.addTokenLit]⟩
  -- ')'
  · injection hok with h2
    subst h2
    rename_i heq
    exact ⟨scanInv_addTokenLit _ _ _ (scanInv_advance_ne st h hlt (by rw [heq]; decide)),
      by simp [ScanState.addTok, ScanState.addTokenLit]⟩
  -- '{'
  · injection hok with h2
    subst h2
    rename_i heq
    exact ⟨scanInv_addTokenLit _ _ _ (scanInv_advance_ne st h hlt (by rw [heq]; decide)),
      by simp [ScanState.addTok, ScanState.addTokenLit]⟩
  -- '}'
  · injection hok with h2
    subst h2
    rename_i heq
    exact ⟨scanInv_addTokenLit _ _ _ (scanInv_advance_ne st h hlt (by rw [heq]; decide)),
      by simp [ScanState.addTok, ScanState.addTokenLit]⟩
  -- ','
  · injection hok with h2
    subst h2
    rename_i heq
    exact ⟨scanInv_addTokenLit _ _ _ (scanInv_advance_ne st h hlt (by rw [heq]; decide)),
      by simp [ScanState.addTok, ScanState.addTokenLit]⟩
  -- '.'
  · injection hok with h2
    subst h2
    rename_i heq
    exact ⟨scanInv_addTokenLit _ _ _ (scanInv_advance_ne st h hlt (by rw [heq]; decide)),
      by simp [ScanState.addTok, ScanState.addTokenLit]⟩
  -- '-'
  · injection hok with h2
    subst h2
    rename_i heq
    exact ⟨scanInv_addTokenLit _ _ _ (scanInv_advance_ne st h hlt (by rw [heq]; decide)),
      by simp [ScanState.addTok, ScanState.addTokenLit]⟩
  -- '+'
  · injection hok with h2
    subst h2
    rename_i heq
    exact ⟨scanInv_addTokenLit _ _ _ (scanInv_advance_ne st h hlt (by rw [heq]; decide)),
      by simp [ScanState.addTok, ScanState.addTokenLit]⟩
  -- ';'
  · injection hok with h2
    subst h2
    rename_i heq
    exact ⟨scanInv_addTokenLit _ _ _ (scanInv_advance_ne st h hlt (by rw [heq]; decide)),
      by simp [ScanState.addTok, ScanState.addTokenLit]⟩
  -- '*'
  · injection hok with h2
    subst h2
    rename_i heq
    exact ⟨scanInv_addTokenLit _ _ _ (scanInv_advance_ne st h hlt (by rw [heq]; decide)),
      by simp [ScanState.addTok, ScanState.addTokenLit]⟩
  -- '!'
  · injection hok with h2
    subst h2
    rename_i heq
    have hadv : ScanInv { st with current := st.current + 1 } :=
      scanInv_advance_ne st h hlt (by rw [heq]; decide)
    obtain ⟨hm1, hm2⟩ := scanInv_matchesCh { st with current := st.current + 1 } '='
      (by decide) hadv
    exact ⟨scanInv_addTokenLit _ _ _ hm1,
      by simp only [ScanState.addTok, ScanState.addTokenLit]; exact hm2.1⟩
  -- '='
  · injection hok with h2
    subst h2
    rename_i heq
    have hadv : ScanInv { st with current := st.current + 1 } :=
      scanInv_advance_ne st h hlt (by rw [heq]; decide)
    obtain ⟨hm1, hm2⟩ := scanInv_matchesCh { st with current := st.current + 1 } '='
      (by decide) hadv
    exact ⟨scanInv_addTokenLit _ _ _ hm1,
      by simp only [ScanState.addTok, ScanState.addTokenLit]; exact hm2.1⟩
  -- '<'
  · injection hok with h2
    subst h2
    rename_i heq
    have hadv : ScanInv { st with current := st.current + 1 } :=
      scanInv_advance_ne st h hlt (by rw [heq]; decide)
    obtain ⟨hm1, hm2⟩ := scanInv_matchesCh { st with current := st.current + 1 } '='
      (by decide) hadv
    exact ⟨scanInv_addTokenLit _ _ _ hm1,
      by simp only [ScanState.addTok, ScanState.addTokenLit]; exact hm2.1⟩
  -- '>'
  · injection hok with h2
    subst h2
    rename_i heq
    have hadv : ScanInv { st with current := st.current + 1 } :=
      scanInv_advance_ne st h hlt (by rw [heq]; decide)
    obtain ⟨hm1, hm2⟩ := scanInv_matchesCh { st with current := st.current + 1 } '='
      (by decide) hadv
    exact ⟨scanInv_addTokenLit _ _ _ hm1,
      by simp only [ScanState.addTok, ScanState.addTokenLit]; exact hm2.1⟩
  -- '/'
  · rename_i heq
    have hadv : ScanInv { st with current := st.current + 1 } :=
      scanInv_advance_ne st h hlt (by rw [heq]; decide)
    obtain ⟨hm1, hm2⟩ := scanInv_matchesCh { st with current := st.current + 1 } '/'
      (by decide) hadv
    by_cases hc1 : (ScanState.matchesCh '/' { st with current := st.current + 1 }).1 = true
    · rw [if_pos hc1] at hok
      injection hok with h2
      subst h2
      obtain ⟨hl1, hl2⟩ := lineCommentLoop_inv fuel _ hm1
      exact ⟨hl1, by rw [hl2.1]; exact hm2.1⟩
    · rw [if_neg hc1] at hok
      obtain ⟨hm1b, hm2b⟩ := scanInv_matchesCh
        (ScanState.matchesCh '/' { st with current := st.current + 1 }).2 '*' (by decide) hm1
      by_cases hc2 : (ScanState.matchesCh '*'
          (ScanState.matchesCh '/' { st with current := st.current + 1 }).2).1 = true
      · rw [if_pos hc2] at hok
        have hsrcb : (ScanState.matchesCh '*'
            (ScanState.matchesCh '/' { st with current := st.current + 1 }).2).2.source
            = st.source := by
          rw [hm2b.1]
          exact hm2.1
        have hcurb : st.current + 1 ≤ (ScanState.matchesCh '*'
            (ScanState.matchesCh '/' { st with current := st.current + 1 }).2).2.current := by
          have b1 := hm2.2.2.2
          have b2 := hm2b.2.2.2
          simp only at b1
          omega
        obtain ⟨hcl1, hcl2⟩ := commentLoop_inv fuel _ st2 hm1b (by rw [hsrcb]; omega) hok
        exact ⟨hcl1, by rw [hcl2.1, hsrcb]⟩
      · rw [if_neg hc2] at hok
        injection hok with h2
        subst h2
        exact ⟨scanInv_addTokenLit _ _ _ hm1,
          by simp only [ScanState.addTok, ScanState.addTokenLit]; exact hm2.1⟩
  -- ' '
  · injection hok with h2
    subst h2
    rename_i heq
    exact ⟨scanInv_advance_ne st h hlt (by rw [heq]; decide), rfl⟩
  -- carriage return
  · injection hok with h2
    subst h2
    rename_i heq
    exact ⟨scanInv_advance_ne st h hlt (by rw [heq]; decide), rfl⟩
  -- tab
  · injection hok with h2
    subst h2
    rename_i heq
    exact ⟨scanInv_advance_ne st h hlt (by rw [heq]; decide), rfl⟩
  -- newline
  · injection hok with h2
    subst h2
    rename_i heq
    exact ⟨scanInv_advance_nl st h hlt (by rw [heq]), rfl⟩
  -- '"'
  · rename_i heq
    have hadv : ScanInv { st with current := st.current + 1 } :=
      scanInv_advance_ne st h hlt (by rw [heq]; decide)
    exact scanString_inv fuel { st with current := st.current + 1 } st2 hadv
      (by simp; omega) hok
  -- default: digit, identifier head, or error
  · rename_i heq
    by_cases hd : (st.source.getD st.current ' ').isDigit = true
    · rw [if_pos hd] at hok
      injection hok with h2
      subst h2
      have hadv : ScanInv { st with current := st.current + 1 } :=
        scanInv_advance_ne st h hlt (fun hnl => by rw [hnl] at hd; exact absurd hd (by decide))
      obtain ⟨hn1, hn2⟩ := scanNumber_inv fuel _ hadv
      exact ⟨hn1, hn2⟩
    · rw [if_neg hd] at hok
      by_cases ha : ((st.source.getD st.current ' ').isAlpha
          || st.source.getD st.current ' ' = '_') = true
      · rw [if_pos ha] at hok
        injection hok with h2
        subst h2
        have hadv : ScanInv { st with current := st.current + 1 } :=
          scanInv_advance_ne st h hlt
            (fun hnl => by rw [hnl] at ha; exact absurd ha (by decide))
        obtain ⟨hn1, hn2⟩ := scanIdentifier_inv fuel _ hadv
        exact ⟨hn1, hn2⟩
      · rw [if_neg ha] at hok
        exact Except.noConfusion hok

theorem scanLoop_inv (fuel : Nat) :
    ∀ (innerFuel : Nat) (st st2 : ScanState), ScanInv st →
      st.source.length < innerFuel →
      scanLoop innerFuel fuel st = .ok st2 →
      ScanInv st2 ∧ st2.source = st.source := by
  induction fuel with
  | zero =>
    intro iF st st2 h hf hok
    simp only [scanLoop] at hok
    injection hok with h2
    subst h2
    exact ⟨h, rfl⟩
  | succ f ih =>
    intro iF st st2 h hf hok
    simp only [scanLoop] at hok
    by_cases hend : st.isAtEnd = true
    · rw [if_pos hend] at hok
      injection hok with h2
      subst h2
      exact ⟨h, rfl⟩
    · rw [if_neg hend] at hok
      cases hs : scanToken iF { st with startPos := st.current } with
      | error e =>
        rw [hs] at hok
        exact Except.noConfusion hok
      | ok st1 =>
        rw [hs] at hok
        have hInvPre : ScanInv { st with startPos := st.current } := by
          obtain ⟨p1, p2, p3, p4⟩ := h
          exact ⟨Nat.le_refl _, p2, p3, p4⟩
        have hltcur : st.current < st.source.length := by
          simp [ScanState.isAtEnd] at hend
          omega
        obtain ⟨hi1, hsrc1⟩ := scanToken_inv iF _ st1 hInvPre hltcur (by simp; omega) hs
        obtain ⟨hi2, hsrc2⟩ := ih iF st1 st2 hi1 (by rw [hsrc1]; exact hf) hok
        exact ⟨hi2, by rw [hsrc2, hsrc1]⟩

/--
C3 (amended): for every source on which scanning succeeds, every non-EOF
token's lexeme is a source slice `[s, e)`, and its line is one plus the
number of newlines strictly before the slice's END `e` (not its start:
a string literal spanning newlines is attached to the line of its CLOSING
quote, because `add_token_literal` reads `self.line` after the newlines
inside the string have been counted).
-/
theorem scanTokens_slices_and_lines (source : String) (toks : List Token)
    (h : scanTokens source = .ok toks) :
    ∀ t ∈ toks, t.typ ≠ .eof →
      ∃ s e, s ≤ e ∧ e ≤ source.data.length ∧
        t.lexeme = String.mk ((source.data.take e).drop s) ∧
        t.line = 1 + nlBefore source.data e := by
  simp only [scanTokens] at h
  cases hs : scanLoop (source.data.length + 1) (source.data.length + 1)
      ⟨source.data, [], 0, 0, 1⟩ with
  | error e =>
    simp only [hs] at h
    exact Except.noConfusion h
  | ok stF =>
    simp only [hs] at h
    injection h with h2
    subst h2
    have hInv0 : ScanInv ⟨source.data, [], 0, 0, 1⟩ :=
      ⟨Nat.le_refl 0, Nat.zero_le _, by simp [nlBefore], by simp⟩
    obtain ⟨hiF, hsrcF⟩ := scanLoop_inv _ _ _ stF hInv0 (by simp) hs
    intro t ht htyp
    rcases List.mem_append.mp ht with ht | ht
    · have htok := hiF.2.2.2 t ht
      rw [hsrcF] at htok
      exact htok
    · rw [List.mem_singleton] at ht
      subst ht
      exact absurd rfl htyp

/-- Witness for `scanTokens_slices_and_lines` at the one-token source `1`. -/
theorem scanTokens_slices_and_lines_witness :
    ∃ s e, s ≤ e ∧ e ≤ "1".data.length ∧
      (⟨.number, "1", some (.number 1), 1⟩ : Token).lexeme
        = String.mk (("1".data.take e).drop s) ∧
      (⟨.number, "1", some (.number 1), 1⟩ : Token).line = 1 + nlBefore "1".data e :=
  scanTokens_slices_and_lines "1"
    [⟨.number, "1", some (.number 1), 1⟩, ⟨.eof, "", none, 1⟩] (by decide)
    ⟨.number, "1", some (.number 1), 1⟩ (by simp) (by decide)

/--
C3 (counterexample): the token for the two-line string literal `"a\nb"`
carries line 2 (its closing quote's line), while the claim — one plus the
newlines strictly before the position the token was scanned FROM (here
position 0, the opening quote) — predicts line 1.
-/
theorem string_token_line_is_closing_quote_line :
    scanTokens "\"a\nb\"" =
      .ok [⟨.string, "\"a\nb\"", some (.str "a\nb"), 2⟩, ⟨.eof, "", none, 2⟩]
    ∧ (⟨.string, "\"a\nb\"", some (.str "a\nb"), 2⟩ : Token).line ≠
        1 + nlBefore ("\"a\nb\"".data) 0 :=
  ⟨by decide, by decide⟩

/-! ## C4: printing and re-parsing -/

/-- An identifier head character (alpha or underscore) is not a digit. -/
theorem ident_head_not_digit (c : Char) (h : (c.isAlpha || c = '_') = true) :
    c.isDigit = false := by
  rcases Bool.or_eq_true_iff.mp h with ha | hu
  · rcases Bool.or_eq_true_iff.mp (by simpa [Char.isAlpha] using ha) with hup | hlo
    · simp only [Char.isUpper, Bool.and_eq_true, decide_eq_true_eq] at hup
      by_contra hd
      simp only [Bool.not_eq_false, Char.isDigit, Bool.and_eq_true, decide_eq_true_eq] at hd
      exact absurd (UInt32.le_trans hup.1 hd.2) (by decide)
    · simp only [Char.isLower, Bool.and_eq_true, decide_eq_true_eq] at hlo
      by_contra hd
      simp only [Bool.not_eq_false, Char.isDigit, Bool.and_eq_true, decide_eq_true_eq] at hd
      exact absurd (UInt32.le_trans hlo.1 hd.2) (by decide)
  · rw [decide_eq_true_eq] at hu
    subst hu
    decide

/-- `scan_token` at the head of a maximal digit run: dispatches to `number`
and emits one Number token covering exactly the run. -/
theorem scanToken_number (d : Char) (ds B : List Char) (A : List Char)
    (toks : List Token) (line fuel : Nat)
    (hrun : ∀ c ∈ (d :: ds), c.isDigit = true)
    (hB : ∀ c, B.head? = some c → c.isDigit = false)
    (hnofrac : ∀ b, B.tail.head? = some b → b.isDigit = false)
    (hfuel : ds.length ≤ fuel) :
    scanToken fuel ⟨A ++ (d :: ds) ++ B, toks, A.length, A.length, line⟩ =
      .ok ⟨A ++ (d :: ds) ++ B,
        toks ++ [⟨.number, String.mk (d :: ds), some (.number (parseNum (d :: ds))), line⟩],
        A.length, A.length + (d :: ds).length, line⟩ := by
  have hd := hrun d (by simp)
  have hre : A ++ (d :: ds) ++ B = A ++ d :: (ds ++ B) := by simp
  have hgd : (A ++ (d :: ds) ++ B).getD A.length ' ' = d := by
    rw [hre]
    exact getD_append_self A d (ds ++ B) ' '
  simp only [scanToken, ScanState.advanceCh, hgd]
  split
  all_goals try exact absurd hd (by decide)
  case _ =>
    rw [if_pos hd]
    have := scanNumber_spec d ds B fuel A toks line hrun hB hnofrac hfuel
    rw [this]

/-- `identifier` (entered past its first character) consumes the rest of
the identifier run; a lexeme outside the reserved-word table becomes one
Identifier token. -/
theorem scanIdentifier_spec (c : Char) (cs B : List Char) (fuel : Nat) (A : List Char)
    (toks : List Token) (line : Nat)
    (hall : ∀ x ∈ (c :: cs), isIdentCh x = true)
    (hB : ∀ x, B.head? = some x → isIdentCh x = false)
    (hres : reservedLookup (String.mk (c :: cs)) = none)
    (hfuel : cs.length ≤ fuel) :
    scanIdentifier fuel ⟨A ++ (c :: cs) ++ B, toks, A.length, A.length + 1, line⟩ =
      ⟨A ++ (c :: cs) ++ B,
       toks ++ [⟨.identifier, String.mk (c :: cs), none, line⟩],
       A.length, A.length + (c :: cs).length, line⟩ := by
  have hS1 : (A ++ (c :: cs) ++ B).drop (A.length + 1) = cs ++ B := by
    have h1 : A ++ (c :: cs) ++ B = (A ++ [c]) ++ (cs ++ B) := by simp
    have h2 : (A ++ [c]).length = A.length + 1 := by simp
    rw [h1, ← h2, List.drop_left]
  have hloop := identLoop_drop cs fuel (A ++ (c :: cs) ++ B) B toks A.length
    (A.length + 1) line hS1 (fun x hx => hall x (by simp [hx])) hB hfuel
  have hntot : A.length + 1 + cs.length = A.length + (c :: cs).length := by simp; omega
  rw [hntot] at hloop
  have hval : List.drop A.length (List.take (A.length + (cs.length + 1)) (A ++ c :: (cs ++ B)))
      = c :: cs := by simpa using slice_middle A (c :: cs) B
  simp only [scanIdentifier, hloop, ScanState.addTok, ScanState.addTokenLit,
    ScanState.valueFor]
  simp [hval, hres]

/-- `scan_token` at the head of a maximal identifier run whose lexeme is
not reserved: emits one Identifier token covering exactly the run. -/
theorem scanToken_identifier (c : Char) (cs B : List Char) (A : List Char)
    (toks : List Token) (line fuel : Nat)
    (hhead : (c.isAlpha || c = '_') = true)
    (hall : ∀ x ∈ (c :: cs), isIdentCh x = true)
    (hB : ∀ x, B.head? = some x → isIdentCh x = false)
    (hres : reservedLookup (String.mk (c :: cs)) = none)
    (hfuel : cs.length ≤ fuel) :
    scanToken fuel ⟨A ++ (c :: cs) ++ B, toks, A.length, A.length, line⟩ =
      .ok ⟨A ++ (c :: cs) ++ B,
        toks ++ [⟨.identifier, String.mk (c :: cs), none, line⟩],
        A.length, A.length + (c :: cs).length, line⟩ := by
  have hre : A ++ (c :: cs) ++ B = A ++ c :: (cs ++ B) := by simp
  have hgd : (A ++ (c :: cs) ++ B).getD A.length ' ' = c := by
    rw [hre]
    exact getD_append_self A c (cs ++ B) ' '
  simp only [scanToken, ScanState.advanceCh, hgd]
  split
  all_goals try exact absurd hhead (by decide)
  case _ =>
    rw [if_neg (by rw [ident_head_not_digit c hhead]; exact Bool.false_ne_true),
      if_pos hhead]
    have := scanIdentifier_spec c cs B fuel A toks line hall hB hres hfuel
    rw [this]

/-- A nonempty source scanned in one `scan_token` step yields exactly that
token followed by EOF. -/
theorem scanTokens_single (S : List Char) (tok : Token) (hS : S ≠ [])
    (hstep : scanToken (S.length + 1) ⟨S, [], 0, 0, 1⟩ = .ok ⟨S, [tok], 0, S.length, 1⟩) :
    scanTokens (String.mk S) = .ok [tok, ⟨.eof, "", none, 1⟩] := by
  obtain ⟨x, xs, rfl⟩ := List.exists_cons_of_ne_nil hS
  simp only [scanTokens]
  simp only [scanLoop]
  rw [if_neg (by simp [ScanState.isAtEnd])]
  simp only [hstep]
  simp only [List.length_cons, scanLoop]
  rw [if_pos (by simp [ScanState.isAtEnd])]
  rfl

/-- Scanning a pure maximal digit run yields one Number token and EOF. -/
theorem scanTokens_number_run (d : Char) (ds : List Char)
    (hrun : ∀ c ∈ (d :: ds), c.isDigit = true) :
    scanTokens (String.mk (d :: ds)) =
      .ok [⟨.number, String.mk (d :: ds), some (.number (parseNum (d :: ds))), 1⟩,
           ⟨.eof, "", none, 1⟩] := by
  refine scanTokens_single (d :: ds) _ (by simp) ?_
  have := scanToken_number d ds [] [] [] 1 ((d :: ds).length + 1) hrun
    (by simp) (by simp) (by simp; omega)
  simpa using this

/-- Scanning a pure maximal identifier run that is not a reserved word
yields one Identifier token and EOF. -/
theorem scanTokens_identifier_run (c : Char) (cs : List Char)
    (hhead : (c.isAlpha || c = '_') = true)
    (hall : ∀ x ∈ (c :: cs), isIdentCh x = true)
    (hres : reservedLookup (String.mk (c :: cs)) = none) :
    scanTokens (String.mk (c :: cs)) =
      .ok [⟨.identifier, String.mk (c :: cs), none, 1⟩, ⟨.eof, "", none, 1⟩] := by
  refine scanTokens_single (c :: cs) _ (by simp) ?_
  have := scanToken_identifier c cs [] [] [] 1 ((c :: cs).length + 1) hhead hall
    (by simp) hres (by simp; omega)
  simpa using this

/-! Digits of a natural number: scanning and parsing them back. -/

theorem digitCh_isDigit (d : Nat) : (digitCh d).isDigit = true := by
  unfold digitCh
  split <;> decide

theorem digitVal_digitCh (d : Nat) (h : d < 10) : digitVal (digitCh d) = d := by
  interval_cases d <;> decide

theorem natDigitsAux_ne_nil (fuel n : Nat) (h0 : n ≠ 0) (hf : fuel ≠ 0) :
    natDigitsAux fuel n ≠ [] := by
  cases fuel with
  | zero => exact absurd rfl hf
  | succ f =>
    simp only [natDigitsAux, h0, if_neg, ite_false]
    simp

theorem natDigitsList_ne_nil (n : Nat) : natDigitsList n ≠ [] := by
  unfold natDigitsList
  by_cases h0 : n = 0
  · simp [h0]
  · simp only [h0, if_neg, ite_false]
    exact natDigitsAux_ne_nil (n + 1) n h0 (by omega)

theorem natDigitsAux_digits (fuel : Nat) :
    ∀ n, ∀ c ∈ natDigitsAux fuel n, c.isDigit = true := by
  induction fuel with
  | zero => intro n c hc; simp [natDigitsAux] at hc
  | succ f ih =>
    intro n c hc
    by_cases h0 : n = 0
    · simp [natDigitsAux, h0] at hc
    · simp only [natDigitsAux, h0, if_neg, ite_false, List.mem_append,
        List.mem_singleton] at hc
      rcases hc with hc | hc
      · exact ih (n / 10) c hc
      · subst hc
        exact digitCh_isDigit (n % 10)

theorem natDigitsList_digits (n : Nat) : ∀ c ∈ natDigitsList n, c.isDigit = true := by
  intro c hc
  unfold natDigitsList at hc
  by_cases h0 : n = 0
  · simp [h0] at hc
    subst hc
    decide
  · simp only [h0, if_neg, ite_false] at hc
    exact natDigitsAux_digits (n + 1) n c hc

theorem digitsVal_append_one (A : List Char) (c : Char) :
    digitsVal (A ++ [c]) = 10 * digitsVal A + digitVal c := by
  simp [digitsVal, List.foldl_append]

theorem digitsVal_natDigitsAux (fuel : Nat) :
    ∀ n, n ≤ fuel → digitsVal (natDigitsAux fuel n) = n := by
  induction fuel with
  | zero =>
    intro n hn
    interval_cases n
    rfl
  | succ f ih =>
    intro n hn
    by_cases h0 : n = 0
    · simp [natDigitsAux, h0, digitsVal]
    · simp only [natDigitsAux, h0, if_neg, ite_false]
      rw [digitsVal_append_one]
      rw [ih (n / 10) (by omega), digitVal_digitCh (n % 10) (by omega)]
      omega

theorem digitsVal_natDigitsList (n : Nat) : digitsVal (natDigitsList n) = n := by
  unfold natDigitsList
  by_cases h0 : n = 0
  · simp [h0]
    decide
  · simp only [h0, if_neg, ite_false]
    exact digitsVal_natDigitsAux (n + 1) n (by omega)

theorem takeWhile_all {p : Char → Bool} (l : List Char) (h : ∀ c ∈ l, p c = true) :
    l.takeWhile p = l ∧ l.dropWhile p = [] := by
  induction l with
  | nil => exact ⟨rfl, rfl⟩
  | cons c l ih =>
    have hc := h c (by simp)
    obtain ⟨h1, h2⟩ := ih (fun x hx => h x (by simp [hx]))
    constructor
    · simp [List.takeWhile_cons, hc, h1]
    · simp [List.dropWhile_cons, hc, h2]

theorem parseNum_all_digits (cs : List Char) (h : ∀ c ∈ cs, c.isDigit = true) :
    parseNum cs = (digitsVal cs : ℚ) := by
  have hno : ∀ c ∈ cs, (c ≠ '.' : Bool) = true := by
    intro c hc
    have := h c hc
    simp only [decide_eq_true_eq]
    rintro rfl
    exact absurd this (by decide)
  obtain ⟨h1, h2⟩ := takeWhile_all cs hno
  unfold parseNum
  rw [h1, h2]

theorem parseNum_natDigitsList (n : Nat) : parseNum (natDigitsList n) = (n : ℚ) := by
  rw [parseNum_all_digits _ (natDigitsList_digits n), digitsVal_natDigitsList]

theorem ratDisplay_natCast (n : Nat) : ratDisplay (n : ℚ) = natToStr n := by
  unfold ratDisplay
  rw [if_pos (Rat.den_natCast n), if_neg (by rw [Rat.num_natCast]; omega)]
  rw [Rat.num_natCast, Int.toNat_ofNat]

/-- Re-parsing a lone Number token yields its literal payload. -/
theorem parseExpr_number_eof (lex : String) (q : ℚ) (l1 l2 : Nat) :
    parseExpressionTokens [⟨.number, lex, some (.number q), l1⟩, ⟨.eof, "", none, l2⟩] =
      .ok (.literal (.number q),
        ⟨[⟨.number, lex, some (.number q), l1⟩, ⟨.eof, "", none, l2⟩], 1⟩) := rfl

/-- Re-parsing a lone Identifier token yields a Variable expression. -/
theorem parseExpr_identifier_eof (lex : String) (l1 l2 : Nat) :
    parseExpressionTokens [⟨.identifier, lex, none, l1⟩, ⟨.eof, "", none, l2⟩] =
      .ok (.variable ⟨.identifier, lex, none, l1⟩,
        ⟨[⟨.identifier, lex, none, l1⟩, ⟨.eof, "", none, l2⟩], 1⟩) := rfl

/-- Token equality ignoring the line number. -/
def tokEqUpToLine (a b : Token) : Prop :=
  a.typ = b.typ ∧ a.lexeme = b.lexeme ∧ a.literal = b.literal

/-- Expression equality up to the line numbers of embedded tokens. -/
def exprEqUpToLine : Expr → Expr → Prop
  | .binary l1 o1 r1, .binary l2 o2 r2 =>
    exprEqUpToLine l1 l2 ∧ tokEqUpToLine o1 o2 ∧ exprEqUpToLine r1 r2
  | .grouping a, .grouping b => exprEqUpToLine a b
  | .literal a, .literal b => a = b
  | .unary o1 r1, .unary o2 r2 => tokEqUpToLine o1 o2 ∧ exprEqUpToLine r1 r2
  | .variable a, .variable b => tokEqUpToLine a b
  | .assign n1 v1, .assign n2 v2 => tokEqUpToLine n1 n2 ∧ exprEqUpToLine v1 v2
  | _, _ => False

/-- Pretty-print an expression, rescan and re-parse it (`none` when the
printed text fails to scan or parse as an expression). -/
def reparsePrinted (e : Expr) : Option Expr :=
  match scanTokens (printExpr e) with
  | .error _ => none
  | .ok toks =>
    match parseExpressionTokens toks with
    | .error _ => none
    | .ok (e2, _) => some e2

/-- The tokens and AST of the expression source `1+2`. -/
def c4SumTokens : List Token :=
  [⟨.number, "1", some (.number 1), 1⟩, ⟨.plus, "+", none, 1⟩,
   ⟨.number, "2", some (.number 2), 1⟩, ⟨.eof, "", none, 1⟩]

def c4SumExpr : Expr :=
  .binary (.literal (.number 1)) ⟨.plus, "+", none, 1⟩ (.literal (.number 2))

/-- The AST of the expression source `-123`: a unary whose printed form
`(- 123)` is again valid expression syntax (a grouping of a unary). -/
def c4NegExpr : Expr :=
  .unary ⟨.minus, "-", none, 1⟩ (.literal (.number 123))

/--
C4 (counterexample): the parser produces `Binary(1, +, 2)` from `1+2`; the
printer renders it in prefix form as `(+ 1 2)`, a text the expression
grammar rejects at `+`, so for this input re-parsing the printed form
fails entirely: the round-trip does not return an AST equal to the
original (it returns nothing at all).
-/
theorem printed_binary_does_not_reparse :
    scanTokens "1+2" = .ok c4SumTokens
    ∧ parseExpressionTokens c4SumTokens = .ok (c4SumExpr, ⟨c4SumTokens, 3⟩)
    ∧ printExpr c4SumExpr = "(+ 1 2)"
    ∧ reparsePrinted c4SumExpr = none :=
  ⟨by decide, rfl, by decide, rfl⟩

/--
C4 (amended): print-then-re-parse is not AST-preserving in general. The
printer emits parenthesized prefix form, so the binary expression parsed
from `1+2` prints as `(+ 1 2)`, which fails to re-parse at all (the
counterexample), while the printed unary `(- 123)` does re-parse but
yields a `Grouping` wrapping the original `Unary`, not an AST equal to
it. The round-trip does reproduce the expression up to token line
numbers for atomic expressions: `Literal(Nil)`, `Literal(Boolean b)`,
`Literal(Number n)` for natural `n`, and `Variable` whose name is a
valid non-reserved identifier.
-/
theorem roundtrip_holds_for_atoms (b : Bool) (n : Nat) (tok : Token) (c : Char)
    (cs : List Char)
    (htyp : tok.typ = .identifier) (hlit : tok.literal = none)
    (hlex : tok.lexeme = String.mk (c :: cs))
    (hhead : (c.isAlpha || c = '_') = true)
    (hall : ∀ x ∈ (c :: cs), isIdentCh x = true)
    (hres : reservedLookup (String.mk (c :: cs)) = none) :
    (∃ e, reparsePrinted (.literal .nil) = some e ∧ exprEqUpToLine (.literal .nil) e)
    ∧ (∃ e, reparsePrinted (.literal (.boolean b)) = some e ∧
        exprEqUpToLine (.literal (.boolean b)) e)
    ∧ (∃ e, reparsePrinted (.literal (.number (n : ℚ))) = some e ∧
        exprEqUpToLine (.literal (.number (n : ℚ))) e)
    ∧ (∃ e, reparsePrinted (.variable tok) = some e ∧
        exprEqUpToLine (.variable tok) e)
    ∧ (printExpr c4NegExpr = "(- 123)"
        ∧ reparsePrinted c4NegExpr = some (.grouping c4NegExpr)
        ∧ ¬ exprEqUpToLine c4NegExpr (.grouping c4NegExpr)) := by
  refine ⟨⟨.literal .nil, rfl, by simp [exprEqUpToLine]⟩, ?_, ?_, ?_, ?_⟩
  · cases b
    · exact ⟨.literal (.boolean false), rfl, by simp [exprEqUpToLine]⟩
    · exact ⟨.literal (.boolean true), rfl, by simp [exprEqUpToLine]⟩
  · refine ⟨.literal (.number (n : ℚ)), ?_, by simp [exprEqUpToLine]⟩
    have hp : printExpr (.literal (.number (n : ℚ))) = String.mk (natDigitsList n) := by
      simp only [printExpr, displayLit]
      rw [ratDisplay_natCast]
      rfl
    obtain ⟨d, ds, hds⟩ := List.exists_cons_of_ne_nil (natDigitsList_ne_nil n)
    have hdig : ∀ x ∈ (d :: ds), x.isDigit = true := by
      rw [← hds]
      exact natDigitsList_digits n
    have hpn : parseNum (d :: ds) = (n : ℚ) := by
      rw [← hds]
      exact parseNum_natDigitsList n
    have hscan := scanTokens_number_run d ds hdig
    rw [hpn] at hscan
    unfold reparsePrinted
    rw [hp, hds]
    simp only [hscan, parseExpr_number_eof]
  · refine ⟨.variable ⟨.identifier, String.mk (c :: cs), none, 1⟩, ?_, ?_⟩
    · have hp : printExpr (.variable tok) = String.mk (c :: cs) := by
        simp [printExpr, hlex]
      have hscan := scanTokens_identifier_run c cs hhead hall hres
      unfold reparsePrinted
      rw [hp]
      simp only [hscan, parseExpr_identifier_eof]
    · exact ⟨htyp, by rw [hlex], by rw [hlit]⟩
  · exact ⟨by decide, rfl, by simp [exprEqUpToLine]⟩

/-- Witness for `roundtrip_holds_for_atoms` at `true`, `42` and the
variable `abc`. -/
theorem roundtrip_holds_for_atoms_witness :
    ((∃ e, reparsePrinted (.literal .nil) = some e ∧ exprEqUpToLine (.literal .nil) e)
    ∧ (∃ e, reparsePrinted (.literal (.boolean true)) = some e ∧
        exprEqUpToLine (.literal (.boolean true)) e)
    ∧ (∃ e, reparsePrinted (.literal (.number ((42 : Nat) : ℚ))) = some e ∧
        exprEqUpToLine (.literal (.number ((42 : Nat) : ℚ))) e)
    ∧ (∃ e, reparsePrinted (.variable ⟨.identifier, "abc", none, 7⟩) = some e ∧
        exprEqUpToLine (.variable ⟨.identifier, "abc", none, 7⟩) e)
    ∧ (printExpr c4NegExpr = "(- 123)"
        ∧ reparsePrinted c4NegExpr = some (.grouping c4NegExpr)
        ∧ ¬ exprEqUpToLine c4NegExpr (.grouping c4NegExpr))) :=
  roundtrip_holds_for_atoms true 42 ⟨.identifier, "abc", none, 7⟩ 'a' ['b', 'c']
    rfl rfl rfl (by decide) (by decide) (by decide)

/-! ## Claims about the environment and evaluator -/

/--
C7: when `assign` is called with a name bound in no environment of the
chain, it returns `UndefinedVariable` for that name, and every environment
in the chain keeps exactly the bindings and values it had before the call
(the post-state chain is equal to the pre-state chain).
-/
theorem assign_unbound_errors_and_preserves_chain (e : Env) (name : String) (v : Literal)
    (h : e.get name = .error (.undefinedVariable name)) :
    e.assign name v = (some (.undefinedVariable name), e) := by
  match e with
  | .mk vals none =>
    cases hv : alistGet vals name with
    | some w =>
      have hget : Env.get (.mk vals none) name = .ok w := by simp [Env.get, hv]
      exact absurd (hget.symm.trans h) (by simp)
    | none => simp [Env.assign, hv]
  | .mk vals (some e2) =>
    cases hv : alistGet vals name with
    | some w =>
      have hget : Env.get (.mk vals (some e2)) name = .ok w := by simp [Env.get, hv]
      exact absurd (hget.symm.trans h) (by simp)
    | none =>
      have hget : Env.get (.mk vals (some e2)) name = e2.get name := by simp [Env.get, hv]
      have ih := assign_unbound_errors_and_preserves_chain e2 name v (hget.symm.trans h)
      simp [Env.assign, hv, ih]

/-- Witness for `assign_unbound_errors_and_preserves_chain` at a concrete
two-environment chain. -/
theorem assign_unbound_witness :
    (Env.mk [("a", .number 1)] (some (.mk [("b", .nil)] none))).assign "c" (.number 2) =
      (some (.undefinedVariable "c"), .mk [("a", .number 1)] (some (.mk [("b", .nil)] none))) :=
  assign_unbound_errors_and_preserves_chain _ "c" (.number 2) (by decide)

/--
C5: for a binary expression whose operator token is one of `-`, `*`, `/`,
`>`, `>=`, `<`, `<=` and whose operands evaluate to `v1` and `v2`:
unless both are numbers, evaluation fails with message
"Operands must be numbers."; and for `/` with two numbers, evaluation
fails with "Cannot divide by zero." exactly when the right operand is `0`
(which stands for both IEEE zeros — see the module comment), and returns
the quotient otherwise.
-/
theorem arith_binary_operand_errors (t : Token)
    (ht : t.typ = .minus ∨ t.typ = .star ∨ t.typ = .slash ∨ t.typ = .greater ∨
          t.typ = .greaterEqual ∨ t.typ = .less ∨ t.typ = .lessEqual)
    (le re : Expr) (s s1 s2 : InterpState) (v1 v2 : Literal)
    (h1 : evalExpr le s = (.ok v1, s1)) (h2 : evalExpr re s1 = (.ok v2, s2)) :
    ((∀ a b : ℚ, ¬(v1 = .number a ∧ v2 = .number b)) →
      evalExpr (.binary le t re) s = (.error (.token t "Operands must be numbers."), s2))
    ∧ (∀ a b : ℚ, v1 = .number a → v2 = .number b → t.typ = .slash →
        evalExpr (.binary le t re) s =
          (if b = 0 then (.error (.token t "Cannot divide by zero."), s2)
           else (.ok (.number (a / b)), s2))) := by
  have hbin : evalExpr (.binary le t re) s = (binaryOp t v1 v2, s2) := by
    simp [evalExpr, h1, h2]
  constructor
  · intro hnum
    rw [hbin]
    rcases ht with h | h | h | h | h | h | h <;>
      cases v1 <;> cases v2 <;>
      simp_all [binaryOp] <;> exact (hnum _ _ ⟨rfl, rfl⟩).elim
  · rintro a b rfl rfl hslash
    rw [hbin]
    by_cases hb : b = 0 <;> simp [binaryOp, hslash, hb]

/-- Witness for `arith_binary_operand_errors`: `nil / 0` is an operand-type
error, and with both conjuncts instantiated at numbers `1 / 0` divides by
zero. -/
theorem arith_binary_operand_errors_witness :
    evalExpr (.binary (.literal .nil) ⟨.slash, "/", none, 1⟩ (.literal (.number 0)))
        initState =
      (.error (.token ⟨.slash, "/", none, 1⟩ "Operands must be numbers."), initState)
    ∧ evalExpr (.binary (.literal (.number 1)) ⟨.slash, "/", none, 1⟩ (.literal (.number 0)))
        initState =
      (.error (.token ⟨.slash, "/", none, 1⟩ "Cannot divide by zero."), initState) := by
  constructor
  · exact (arith_binary_operand_errors ⟨.slash, "/", none, 1⟩ (by simp)
      (.literal .nil) (.literal (.number 0)) initState initState initState .nil (.number 0)
      rfl rfl).1 (by intro a b hab; exact Literal.noConfusion hab.1)
  · have := (arith_binary_operand_errors ⟨.slash, "/", none, 1⟩ (by simp)
      (.literal (.number 1)) (.literal (.number 0)) initState initState initState
      (.number 1) (.number 0) rfl rfl).2 1 0 rfl rfl rfl
    simpa using this

/--
C6: for a binary `+` whose operands evaluate to `v1` and `v2`: two numbers
add, two strings concatenate (left then right), and every other
combination fails with "Operands must be two numbers or two strings."
(no coercion).
-/
theorem plus_overload (t : Token) (ht : t.typ = .plus)
    (le re : Expr) (s s1 s2 : InterpState) (v1 v2 : Literal)
    (h1 : evalExpr le s = (.ok v1, s1)) (h2 : evalExpr re s1 = (.ok v2, s2)) :
    (∀ a b : ℚ, v1 = .number a → v2 = .number b →
      evalExpr (.binary le t re) s = (.ok (.number (a + b)), s2))
    ∧ (∀ x y : String, v1 = .str x → v2 = .str y →
      evalExpr (.binary le t re) s = (.ok (.str (x ++ y)), s2))
    ∧ ((∀ a b : ℚ, ¬(v1 = .number a ∧ v2 = .number b)) →
       (∀ x y : String, ¬(v1 = .str x ∧ v2 = .str y)) →
      evalExpr (.binary le t re) s =
        (.error (.token t "Operands must be two numbers or two strings."), s2)) := by
  have hbin : evalExpr (.binary le t re) s = (binaryOp t v1 v2, s2) := by
    simp [evalExpr, h1, h2]
  refine ⟨?_, ?_, ?_⟩
  · rintro a b rfl rfl; rw [hbin]; simp [binaryOp, ht]
  · rintro x y rfl rfl; rw [hbin]; simp [binaryOp, ht]
  · intro hnum hstr
    rw [hbin]
    cases v1 <;> cases v2 <;> simp_all [binaryOp] <;>
      first
      | exact (hnum _ _ ⟨rfl, rfl⟩).elim
      | exact (hstr _ _ ⟨rfl, rfl⟩).elim

/-- Witness for `plus_overload`: `1 + 2 = 3`, `"foo" + "bar" = "foobar"`,
and `1 + "bar"` is an error (no coercion). -/
theorem plus_overload_witness :
    evalExpr (.binary (.literal (.number 1)) ⟨.plus, "+", none, 1⟩ (.literal (.number 2)))
        initState = (.ok (.number 3), initState)
    ∧ evalExpr (.binary (.literal (.str "foo")) ⟨.plus, "+", none, 1⟩ (.literal (.str "bar")))
        initState = (.ok (.str "foobar"), initState)
    ∧ evalExpr (.binary (.literal (.number 1)) ⟨.plus, "+", none, 1⟩ (.literal (.str "bar")))
        initState =
      (.error (.token ⟨.plus, "+", none, 1⟩ "Operands must be two numbers or two strings."),
        initState) := by
  refine ⟨?_, ?_, ?_⟩
  · have := (plus_overload ⟨.plus, "+", none, 1⟩ rfl (.literal (.number 1))
      (.literal (.number 2)) initState initState initState (.number 1) (.number 2)
      rfl rfl).1 1 2 rfl rfl
    norm_num at this
    exact this
  · exact (plus_overload ⟨.plus, "+", none, 1⟩ rfl (.literal (.str "foo"))
      (.literal (.str "bar")) initState initState initState (.str "foo") (.str "bar")
      rfl rfl).2.1 "foo" "bar" rfl rfl
  · exact (plus_overload ⟨.plus, "+", none, 1⟩ rfl (.literal (.number 1))
      (.literal (.str "bar")) initState initState initState (.number 1) (.str "bar")
      rfl rfl).2.2
      (by intro a b hab; exact Literal.noConfusion hab.2)
      (by intro x y hxy; exact Literal.noConfusion hxy.1)

/--
C8: for every literal value `x`, `!!x` evaluates to `Boolean (truthy x)`
where truthiness is false exactly for `Nil` and `Boolean false`; and the
`!` operator never fails: whenever its operand evaluates successfully,
so does the bang expression.
-/
theorem double_bang_is_truthy (t : Token) (ht : t.typ = .bang) (x : Literal)
    (s : InterpState) :
    evalExpr (.unary t (.unary t (.literal x))) s = (.ok (.boolean (isTruthy x)), s)
    ∧ (∀ (e : Expr) (v : Literal) (s1 : InterpState), evalExpr e s = (.ok v, s1) →
        evalExpr (.unary t e) s = (.ok (.boolean (! isTruthy v)), s1)) := by
  constructor
  · simp [evalExpr, unaryOp, ht, isTruthy]
  · intro e v s1 he
    simp [evalExpr, he, unaryOp, ht]

/-- Witness for `double_bang_is_truthy`: `!!0` is `true` (zero is truthy),
and `!nil` is `true`. -/
theorem double_bang_is_truthy_witness :
    evalExpr (.unary ⟨.bang, "!", none, 1⟩ (.unary ⟨.bang, "!", none, 1⟩
        (.literal (.number 0)))) initState = (.ok (.boolean true), initState)
    ∧ evalExpr (.unary ⟨.bang, "!", none, 1⟩ (.literal .nil)) initState =
        (.ok (.boolean true), initState) := by
  constructor
  · exact (double_bang_is_truthy ⟨.bang, "!", none, 1⟩ rfl (.number 0) initState).1
  · exact (double_bang_is_truthy ⟨.bang, "!", none, 1⟩ rfl .nil initState).2
      (.literal .nil) .nil initState rfl

/-! ## C1: block evaluation and the environment on the error path -/

/-- The block `{ 1/0; }`, whose single statement raises a runtime error. -/
def c1Block : Stmt :=
  .block [.expression (.binary (.literal (.number 1)) ⟨.slash, "/", none, 1⟩
    (.literal (.number 0)))]

/--
C1 (failing input): executing the block `{ 1/0; }` from a fresh state
raises "Cannot divide by zero.", and the interpreter's current environment
afterwards is the freshly created inner block environment, NOT the
enclosing environment held before the block: the `?` in `execute_block`
returns before the restore.  This contradicts the claim (and §4.4, §5 and
§8 of the spec), which require the previous environment to be restored on
the error path as well.
-/
theorem block_error_leaves_inner_env :
    execStmt c1Block initState =
      (some (.token ⟨.slash, "/", none, 1⟩ "Cannot divide by zero."),
        ⟨Env.newEnclosed Env.new, []⟩)
    ∧ Env.newEnclosed Env.new ≠ Env.new := by
  constructor
  · rfl
  · decide

/-! ## C2: parser error recovery -/

/-- Tokens of the source `print ;`, whose print statement fails to parse. -/
def c2Tokens : List Token :=
  [⟨.printKw, "print", none, 1⟩, ⟨.semiColon, ";", none, 1⟩, ⟨.eof, "", none, 1⟩]

/--
C2 (counterexample): the claim asserts recovery for a failing declaration
of any form, including print statements.  But parsing `print ;` aborts
with "expected expression" instead of synchronizing and emitting a
placeholder: no statement list is produced at all, so the statement count
is not preserved.
-/
theorem parse_aborts_on_print_error :
    scanTokens "print ;" = .ok c2Tokens
    ∧ presOk (parseP c2Tokens) = false
    ∧ parseP c2Tokens =
        .error (⟨⟨.semiColon, ";", none, 1⟩, "expected expression"⟩, ⟨c2Tokens, 2⟩) := by
  exact ⟨by decide, rfl, rfl⟩

/--
C2 (amended): only a failing var declaration is recovered: when the
current token is `var` and `var_declaration` fails, `declaration` invokes
`synchronize` from the error position and returns the placeholder
`Expression(Literal(Nil))` statement; when the current token is not `var`,
`declaration` is exactly `statement`, whose errors propagate (aborting
the parse, as the counterexample shows).
-/
theorem declaration_recovery_only_for_var (fuel : Nat) (p : PState) :
    (p.peekT.typ = .varKw →
      ∀ e p2, varDeclarationP fuel { p with current := p.current + 1 } = .error (e, p2) →
        declarationP (fuel + 1) p = .ok (placeholderStmt, synchronizeP fuel p2))
    ∧ (p.peekT.typ ≠ .varKw → declarationP (fuel + 1) p = statementP (declarationP fuel) fuel p) := by
  constructor
  · intro hvar e p2 herr
    have hne : p.isAtEndP = false := by
      simp [PState.isAtEndP, hvar]
    simp [declarationP, PState.matchesTokenP, PState.checkToken, hne, hvar,
      PState.advanceT, herr]
  · intro hvar
    by_cases hend : p.isAtEndP
    · simp [declarationP, PState.matchesTokenP, PState.checkToken, hend]
    · simp [declarationP, PState.matchesTokenP, PState.checkToken, hend, hvar]

/-- Tokens of `var 1;` (a failing var declaration) and of `1;` (an
expression statement). -/
def c2VarTokens : List Token :=
  [⟨.varKw, "var", none, 1⟩, ⟨.number, "1", some (.number 1), 1⟩,
   ⟨.semiColon, ";", none, 1⟩, ⟨.eof, "", none, 1⟩]

/-- Witness for `declaration_recovery_only_for_var`: parsing the
declaration `var 1;` yields the placeholder after synchronizing, and a
declaration not starting with `var` is parsed by `statement`. -/
theorem declaration_recovery_only_for_var_witness :
    declarationP 6 ⟨c2VarTokens, 0⟩ = .ok (placeholderStmt, synchronizeP 5 ⟨c2VarTokens, 1⟩)
    ∧ declarationP 6 ⟨c2Tokens, 0⟩ = statementP (declarationP 5) 5 ⟨c2Tokens, 0⟩ := by
  constructor
  · exact (declaration_recovery_only_for_var 5 ⟨c2VarTokens, 0⟩).1 (by decide)
      ⟨⟨.number, "1", some (.number 1), 1⟩, "Expected variable name."⟩ ⟨c2VarTokens, 1⟩ rfl
  · exact (declaration_recovery_only_for_var 5 ⟨c2Tokens, 0⟩).2 (by decide)

/-! ## C10: `primary` with a missing literal payload -/

/--
C10: for a token of kind String, Number, True, False or Nil whose literal
payload is absent, `primary` succeeds and produces `Literal(Nil)` (the
`unwrap_or(Literal::Nil)` default), advancing one token.
-/
theorem primary_defaults_missing_payload (exprFn : PState → PResult Expr) (p : PState)
    (htyp : p.peekT.typ = .string ∨ p.peekT.typ = .number ∨ p.peekT.typ = .trueKw ∨
            p.peekT.typ = .falseKw ∨ p.peekT.typ = .nilKw)
    (hlit : p.peekT.literal = none) :
    primaryP exprFn p = .ok (.literal .nil, { p with current := p.current + 1 }) := by
  have hne : p.isAtEndP = false := by
    rcases htyp with h | h | h | h | h <;> simp [PState.isAtEndP, h]
  have hadv : p.advanceT = (p.peekT, { p with current := p.current + 1 }) := by
    simp [PState.advanceT, hne, PState.previousT, PState.peekT]
  rcases htyp with h | h | h | h | h <;>
    simp [primaryP, hadv, h, hlit]

/-- Witness for `primary_defaults_missing_payload` at a payload-less
Number token. -/
theorem primary_defaults_missing_payload_witness :
    primaryP (expressionP 4) ⟨[⟨.number, "1", none, 1⟩, ⟨.eof, "", none, 1⟩], 0⟩ =
      .ok (.literal .nil, ⟨[⟨.number, "1", none, 1⟩, ⟨.eof, "", none, 1⟩], 1⟩) :=
  primary_defaults_missing_payload (expressionP 4)
    ⟨[⟨.number, "1", none, 1⟩, ⟨.eof, "", none, 1⟩], 0⟩ (by decide) (by decide)

end RLox


